import Mathlib

/-!
Shallow embedding of the action dependency graph scheduler of the
`menoua/task-runner` repository (files `src/action.rs`, `src/block.rs`,
`src/dispatch.rs`), together with theorems settling the frozen claims.

Modelling conventions:
* `HashSet<ID>` values are modelled as duplicate-free `List ID` values;
  the source's hash-set iteration order is unspecified, the model fixes
  insertion order.  `HashMap<ID, usize>` (`Block.id2action`) is modelled
  as an association list with overwrite-on-insert semantics.
* File input and output (template files, YAML parsing, background images,
  log files, channels, UI widget state) is out of scope: the parsed inner
  action list of a template is carried directly in the node, and the event
  log written by `Block::finish` is kept in a `flushedLog` field.
  Timestamps inside log lines are dropped.
* Rust panics (`unwrap`, `todo!`, the deadlock `panic!`) are modelled with
  the `RunRes.panicked` outcome; the unbounded `while` loops of the
  dispatcher take a fuel argument and answer `RunRes.spin` when it runs
  out, so that divergence of the source is expressible as: the result is
  `spin` for every fuel.
-/

namespace TaskRunner

/-- Action identifiers (`pub type ID = String` in `src/action.rs`). -/
abbrev ID := String

/-- Insert into a set-as-list (`HashSet::insert`). -/
def sinsert (x : ID) (s : List ID) : List ID :=
  if x ∈ s then s else s ++ [x]

/-- Remove from a set-as-list (`HashSet::remove`). -/
def sremove (x : ID) (s : List ID) : List ID :=
  s.filter (fun y => y ≠ x)

/-- Union of set-as-lists (`HashSet::extend`): insert every element of `t`. -/
def sextend (s t : List ID) : List ID :=
  t.foldl (fun acc x => sinsert x acc) s

/-- Maximum template nesting depth (`pub const MAX_DEPTH: u16 = 3`). -/
def MAX_DEPTH : Nat := 3

/-- The scheduler-relevant part of the per-action `Info` record of
`src/action.rs`.  The runtime-only fields `keystrokes`, `background_image`,
`log_prefix` and `comm` (UI and channel state) are omitted. -/
structure Info where
  id : ID := ""
  with_ : Option ID := none
  after : Option (List ID) := none
  monitor_kb : Bool := false
  background : Option String := none
  timeout : Option Nat := none
  dependents : List ID := []
  successors : List ID := []
  expired : Option Bool := none
deriving Repr, DecidableEq

/-- The action kinds of the `Action` enum.  Payload fields that only feed
the presentation layer (prompts, options, sources, widget handles,
template parameters) are omitted; a template's parsed inner action list
is kept as the node's children. -/
inductive Kind where
  | nothing
  | instruction
  | selection
  | audio
  | image
  | question
  | template
deriving Repr, DecidableEq

/-- A graph node: an action kind, its `Info` record, and (for templates
only) the parsed inner action list. -/
inductive Action where
  | mk (kind : Kind) (info : Info) (kids : List Action)

/-- Kind of a node. -/
def Action.kind : Action → Kind
  | .mk k _ _ => k

/-- Info record of a node (`Action::info`). -/
def Action.info : Action → Info
  | .mk _ i _ => i

/-- Inner action list of a template node. -/
def Action.kids : Action → List Action
  | .mk _ _ ks => ks

/-- Replace the info record of a node (models writes through
`Action::info_mut`). -/
def Action.withInfo : Action → Info → Action
  | .mk k _ ks, i => .mk k i ks

/-- Identifier of a node (`Action::id`). -/
def Action.idA (a : Action) : ID := a.info.id

/-- Set the identifier of a node (`Action::set_id`). -/
def Action.setIdA (a : Action) (nid : ID) : Action :=
  a.withInfo { a.info with id := nid }

/-- Predecessor set of a node, empty when absent (`Action::after`). -/
def Action.afterA (a : Action) : List ID :=
  match a.info.after with
  | some ids => ids
  | none => []

/-- Companion reference of a node (`Action::with`). -/
def Action.withA (a : Action) : Option ID := a.info.with_

/-- Readiness of a node (`Action::is_ready`): `none` when the predecessor
set was never assigned, otherwise whether it is empty. -/
def Action.isReadyA (a : Action) : Option Bool :=
  match a.info.after with
  | some ids => some ids.isEmpty
  | none => none

/-- Expiration flag of a node (`Action::is_expired`). -/
def Action.isExpiredA (a : Action) : Option Bool := a.info.expired

/-- Mark a node expired (`Action::expire`). -/
def Action.expireA (a : Action) : Action :=
  a.withInfo { a.info with expired := some true }

/-- Whether the node owns the foreground view (`Action::has_view`).
The `Template` arm of the source is `todo!()`, a panic, modelled as
`none`. -/
def Action.hasViewA (a : Action) : Option Bool :=
  match a.kind with
  | .nothing => some false
  | .audio => some false
  | .template => none
  | _ => some true

/-- Whether the node owns the background layer (`Action::has_background`). -/
def Action.hasBackgroundA (a : Action) : Bool := a.info.background.isSome

/-- Whether the node captures keystrokes (`Action::captures_keystrokes`). -/
def Action.capturesKeystrokesA (a : Action) : Bool := a.info.monitor_kb

/-- Remove a completed predecessor and report readiness
(`Action::satisfy`).  The source unwraps the `after` option; `none`
models that panic. -/
def Action.satisfyA (a : Action) (id : ID) : Option (Action × Bool) :=
  match a.info.after with
  | none => none
  | some s =>
    let s := sremove id s
    some (a.withInfo { a.info with after := some s }, s.isEmpty)

/-! ### Graph construction (template expansion, gates, verification) -/

/-- The per-iteration body of the namespacing loop of the `Template` arm of
`Action::init` (src/action.rs lines 311-327), folded over the inner action
list.  It prefixes every inner id with `<outer id>~`, prefixes and then
extends every present inner `after` set with the outer `after` set, and —
exactly as the source does — rewrites the *outer* info's `with` field once
per iteration, never touching the inner `with`.  The two `else` branches of
the source are the self-assignments `info.after = info.after.clone()` and
`info.with = info.with.clone()`, i.e. no-ops on the outer info. -/
def relabelInners : Info → List Action → Info × List Action
  | outer, [] => (outer, [])
  | outer, a :: rest =>
    let info := a.info
    let info := { info with id := outer.id ++ "~" ++ info.id }
    let info :=
      match info.after with
      | some s =>
        let s := s.map (fun x => outer.id ++ "~" ++ x)
        let s :=
          match outer.after with
          | some ids => sextend s ids
          | none => s
        { info with after := some s }
      | none => info
    let outer :=
      match outer.with_ with
      | some w => { outer with with_ := some (outer.id ++ "~" ++ w) }
      | none => outer
    let r := relabelInners outer rest
    (r.1, a.withInfo info :: r.2)

/-- A synthetic no-op gate node as built by `flow::add_gates`. -/
def mkGate (gid : ID) (after : Option (List ID)) (with_ : Option ID) : Action :=
  .mk .nothing
    { id := gid, with_ := with_, after := after, monitor_kb := false,
      background := none, timeout := some 0, dependents := [],
      successors := [], expired := some true } []

/-- The loop of `flow::add_gates` over the node list: threads the
`finalists` set (initially all listed ids), removes every id referenced by
a present `after` set, inserts `"entry"` into that set, and defaults an
absent `with` to the external companion. -/
def gateLoop (with_ : Option ID) : List Action → List ID → List Action × List ID
  | [], fin => ([], fin)
  | a :: rest, fin =>
    let p :=
      match a.info.after with
      | some s =>
        (a.withInfo { a.info with after := some (sinsert "entry" s) },
         s.foldl (fun f x => sremove x f) fin)
      | none => (a, fin)
    let a2 := if p.1.info.with_ = none then p.1.withInfo { p.1.info with with_ := with_ } else p.1
    let r := gateLoop with_ rest p.2
    (a2 :: r.1, r.2)

/-- `flow::add_gates`: synthesize the pre-expired `entry` and `exit` gates
around a node list.  The source returns `Result` but never fails, so the
model is pure. -/
def add_gates (actions : List Action) (after : Option (List ID)) (with_ : Option ID) :
    List Action :=
  let entry := mkGate "entry" after with_
  let fin0 := actions.map Action.idA
  let r := gateLoop with_ actions fin0
  let exitG := mkGate "exit" (some r.2) with_
  entry :: r.1 ++ [exitG]

/-- The splicing loop of `Action::init` / `Block::init`: replace every
template node by its (already fully expanded) inner list; the index jumps
past the inserted nodes, so they are not re-examined. -/
def spliceTemplates : List Action → List Action
  | [] => []
  | a :: rest =>
    match a.kind with
    | .template => a.kids ++ spliceTemplates rest
    | _ => a :: spliceTemplates rest

/-- Apply a function to the element at an index of a list, when present. -/
def modifyAt (l : List Action) (i : Nat) (f : Action → Action) : List Action :=
  match l.get? i with
  | some a => l.set i (f a)
  | none => l

/-- Rename the first and last node of a gated inner list to the template's
boundary addresses (`actions[0].set_id`, `actions[len-1].set_id`). -/
def renameEnds (en ex : ID) (l : List Action) : List Action :=
  let l := modifyAt l 0 (fun a => a.setIdA en)
  modifyAt l (l.length - 1) (fun a => a.setIdA ex)

/-- The id-assignment and validation chain at the top of `Action::init`. -/
def checkId (info : Info) (position : Nat) : Except String Info :=
  if info.id = "" then
    .ok { info with id := toString position }
  else if ¬ (info.id.toList.all fun c => c.isAlphanum || c = '_' || c = '-') then
    .error "Only alphanumeric (a-z|A-Z|0-9), '-', and '_' are allowed in actions IDs."
  else if info.id.toList.all Char.isDigit then
    .error "Custom action ID cannot be digits only."
  else if info.id = "entry" || info.id = "exit" then
    .error "`entry` and `exit` are reserved action IDs."
  else
    .ok info

/-- The shared prologue of `Action::init`: id assignment and validation,
then the default predecessor assignment for an action that declares
neither `after` nor `with` (chain to the previous sibling, or the empty
set when first), then the zero-timeout expiration mark. -/
def initInfo (info : Info) (position : Nat) (last_action : Option ID) :
    Except String Info :=
  match checkId info position with
  | .error e => .error e
  | .ok info =>
    let info :=
      match info.after, info.with_ with
      | none, none =>
        match last_action with
        | some last_id => { info with after := some [last_id] }
        | none => { info with after := some [] }
      | _, _ => info
    let info :=
      if info.timeout = some 0 then { info with expired := some true } else info
    .ok info

/-- The initialization loop shared by `Block::init` and the `Template` arm
of `Action::init`: initialize each action in order with positions starting
at 1 and default-chaining `last_action`, rejecting duplicate ids.  The
recursive `Action::init` call is passed as `f`. -/
def initActions (f : Action → Nat → Option ID → Except String Action)
    (dupMsg : ID → String) :
    List Action → Nat → Option ID → List ID → Except String (List Action)
  | [], _, _, _ => .ok []
  | a :: rest, i, last, ids =>
    match f a (i + 1) last with
    | .error e => .error e
    | .ok a =>
      if a.idA ∈ ids then
        .error (dupMsg a.idA)
      else
        match initActions f dupMsg rest (i + 1) (some a.idA) (sinsert a.idA ids) with
        | .error e => .error e
        | .ok rest => .ok (a :: rest)

/-- `Action::init`.  `fuel` is a termination measure for the template
recursion only: callers maintain `fuel = MAX_DEPTH + 2 - depth`, and since
the source rejects `depth > MAX_DEPTH` before recursing, the fuel-zero arm
is unreachable.  Template file loading, parameter substitution and YAML
parsing are I/O and are modelled by the already-parsed inner list carried
in the node; background-image and UI-widget initialization is omitted. -/
def Action.initA : Nat → Action → Nat → Option ID → Nat → Except String Action
  | 0, _, _, _, _ => .error "Maximum allowed template depth reached: 3."
  | fuel + 1, a, position, last_action, depth =>
    if MAX_DEPTH < depth then
      .error "Maximum allowed template depth reached: 3."
    else
      match initInfo a.info position last_action with
      | .error e => .error e
      | .ok info =>
        match a.kind with
        | .nothing =>
          .ok (.mk .nothing
            (if info.timeout = none then { info with timeout := some 0 } else info) [])
        | .template =>
          match initActions
            (fun a p l => Action.initA fuel a p l (depth + 1))
            (fun id => "Action ID `" ++ id ++ "` used more than once in template")
            a.kids 0 none [] with
          | .error e => .error e
          | .ok inners =>
            let r := relabelInners info (spliceTemplates inners)
            let gated := add_gates r.2 r.1.after r.1.with_
            .ok (.mk .template r.1
              (renameEnds (r.1.id ++ "~entry") (r.1.id ++ "~exit") gated))
        | k => .ok (.mk k info [])

/-- Rewrite one reference list during `Action::verify`: keep direct ids,
redirect `<ref>` to `<ref>~exit` when only the latter exists, otherwise
fail with `Invalid action ID`. -/
def rewriteRefs (id_list : List ID) : List ID → Except String (List ID)
  | [] => .ok []
  | x :: rest =>
    if x ∈ id_list then
      match rewriteRefs id_list rest with
      | .error e => .error e
      | .ok rest => .ok (x :: rest)
    else if (x ++ "~exit") ∈ id_list then
      match rewriteRefs id_list rest with
      | .error e => .error e
      | .ok rest => .ok ((x ++ "~exit") :: rest)
    else
      .error ("Invalid action ID: " ++ x)

/-- `Action::verify`: self-reference checks, then template-boundary
redirection of `after` references, then redirection of an unresolved
`with` reference to `<ref>~exit` with `<ref>~entry` inserted into (or
becoming) the `after` set. -/
def Action.verifyA (a : Action) (id_list : List ID) : Except String Action :=
  let info := a.info
  if (match info.after with | some ids => ids.contains info.id | none => false) then
    .error ("Action cannot be a successor of itself: " ++ info.id)
  else if info.with_ = some info.id then
    .error ("Action cannot be a dependent of itself: " ++ info.id)
  else
    match (match info.after with
      | some s =>
        (match rewriteRefs id_list s with
          | .error e => .error e
          | .ok s => .ok (some s) : Except String (Option (List ID)))
      | none => .ok none) with
    | .error e => .error e
    | .ok after =>
      let p :=
        match info.with_ with
        | some w =>
          if w ∈ id_list then (after, some w)
          else
            match after with
            | some s => (some (sinsert (w ++ "~entry") s), some (w ++ "~exit"))
            | none => (some [w ++ "~entry"], some (w ++ "~exit"))
        | none => (after, none)
      .ok (a.withInfo { info with after := p.1, with_ := p.2 })

/-! ### Blocks -/

/-- One entry of the block event log (timestamps dropped). -/
inductive Event where
  | start (id : ID)
  | wrap (id : ID)
  | skip (id : ID)
deriving Repr, DecidableEq

/-- The scheduler-relevant state of `Block` (src/block.rs).  `description`
and `log_dir` feed only file I/O and are omitted; `flushedLog` models the
contents of the `events.log` file written by `Block::finish`. -/
structure Block where
  id : Nat := 0
  title : String := ""
  actions : List Action := []
  id2action : List (ID × Nat) := []
  events : List Event := []
  flushedLog : List Event := []

/-- Insert with overwrite into the id-to-index map (`HashMap::insert`). -/
def mapInsert (k : ID) (v : Nat) : List (ID × Nat) → List (ID × Nat)
  | [] => [(k, v)]
  | (k', v') :: rest => if k' = k then (k, v) :: rest else (k', v') :: mapInsert k v rest

/-- Lookup in the id-to-index map (`HashMap::get`). -/
def mapGet? (k : ID) (m : List (ID × Nat)) : Option Nat :=
  (m.find? (fun p => p.1 = k)).map (fun p => p.2)

/-- Lookup a node by id through the index (`Block::action`). -/
def Block.actionGet? (b : Block) (id : ID) : Option Action :=
  (mapGet? id b.id2action).bind fun i => b.actions.get? i

/-- Replace the node an id resolves to (writes through
`Block::action_mut`).  Leaves the block unchanged when the id does not
resolve; every use is guarded by a successful lookup. -/
def Block.setActionAt (b : Block) (id : ID) (a : Action) : Block :=
  match mapGet? id b.id2action with
  | some i => { b with actions := b.actions.set i a }
  | none => b

/-- Append to the in-memory event log. -/
def Block.pushEvent (b : Block) (e : Event) : Block :=
  { b with events := b.events ++ [e] }

/-- The reverse-link loop body of `Block::init`: give every predecessor of
`link_id` a successor link and the companion target a dependent link. -/
def addSuccLinks (link_id : ID) : List ID → Block → Except String Block
  | [], b => .ok b
  | t :: rest, b =>
    match b.actionGet? t with
    | some a =>
      addSuccLinks link_id rest (b.setActionAt t
        (a.withInfo { a.info with successors := sinsert link_id a.info.successors }))
    | none => .error ("Invalid mutable reference to action: " ++ t)

/-- The dependent-link step of the reverse-link loop. -/
def addDepLink (b : Block) (link_id : ID) : Option ID → Except String Block
  | some w =>
    match b.actionGet? w with
    | some a =>
      .ok (b.setActionAt w
        (a.withInfo { a.info with dependents := sinsert link_id a.info.dependents }))
    | none => .error ("Invalid mutable reference to action: " ++ w)
  | none => .ok b

/-- One id of the reverse-link loop of `Block::init`. -/
def addLinks (b : Block) (link_id : ID) (after : List ID) (with_ : Option ID) :
    Except String Block :=
  match addSuccLinks link_id after b with
  | .error e => .error e
  | .ok b => addDepLink b link_id with_

/-- The reverse-link pass of `Block::init` over all ids. -/
def linkLoop : List ID → Block → Except String Block
  | [], b => .ok b
  | id :: rest, b =>
    match b.actionGet? id with
    | none => .error ("Invalid reference to action: " ++ id)
    | some a =>
      match addLinks b a.idA a.afterA a.withA with
      | .error e => .error e
      | .ok b => linkLoop rest b

/-- The verification pass of `Block::init`: `Action::verify` on every node
against the fixed id list. -/
def verifyAll (id_list : List ID) : List Action → Except String (List Action)
  | [] => .ok []
  | a :: rest =>
    match a.verifyA id_list with
    | .error e => .error e
    | .ok a =>
      match verifyAll id_list rest with
      | .error e => .error e
      | .ok rest => .ok (a :: rest)

/-- The index-building loop of `Block::init`, starting at a position. -/
def buildIndexFrom : Nat → List Action → List (ID × Nat) → List (ID × Nat)
  | _, [], m => m
  | i, a :: rest, m => buildIndexFrom (i + 1) rest (mapInsert a.idA i m)

/-- Build the id-to-index lookup table of `Block::init`. -/
def buildIndex (acts : List Action) : List (ID × Nat) :=
  buildIndexFrom 0 acts []

/-- `Block::init`: initialize and duplicate-check the declared actions,
splice expanded templates, add the block-level gates with an empty
external predecessor set and no companion, build the index, verify every
node, and build the reverse links.  Description-file loading is I/O and
is omitted. -/
def Block.initB (b : Block) (blkId : Nat) : Except String Block :=
  match initActions (fun a p l => Action.initA (MAX_DEPTH + 2) a p l 0)
    (fun id => "Action ID `" ++ id ++ "` used more than once; IDs should be unique")
    b.actions 0 none [] with
  | .error e => .error e
  | .ok acts0 =>
    let acts := add_gates (spliceTemplates acts0) (some []) none
    let idx := buildIndex acts
    let id_list := sextend [] (acts.map Action.idA)
    match verifyAll id_list acts with
    | .error e => .error e
    | .ok acts2 =>
      linkLoop id_list { b with id := blkId, actions := acts2, id2action := idx }

/-- All node ids of a block, in order (`Block::actions`). -/
def Block.actionIds (b : Block) : List ID := b.actions.map Action.idA

/-- Outcome of a dispatcher operation: a value, a Rust panic, or fuel
exhaustion of one of the source's unbounded loops. -/
inductive RunRes (α : Type) where
  | ok (a : α)
  | panicked (msg : String)
  | spin
deriving Repr

/-- Sequencing of dispatcher steps. -/
def RunRes.bind {α β : Type} : RunRes α → (α → RunRes β) → RunRes β
  | .ok a, f => f a
  | .panicked msg, _ => .panicked msg
  | .spin, _ => .spin

@[simp] theorem RunRes.bind_ok {α β : Type} (a : α) (f : α → RunRes β) :
    RunRes.bind (.ok a) f = f a := rfl

@[simp] theorem RunRes.bind_panicked {α β : Type} (m : String) (f : α → RunRes β) :
    RunRes.bind (.panicked m) f = .panicked m := rfl

@[simp] theorem RunRes.bind_spin {α β : Type} (f : α → RunRes β) :
    RunRes.bind (.spin : RunRes α) f = .spin := rfl

/-- The loop of `Block::satisfy` over the successors of a completed or
skipped node: each successor drops the node from its predecessor set and
is collected when it becomes ready.  Lookup and `after` unwrap failures
are panics. -/
def satisfySuccs (pid : ID) : List ID → Block → List ID → RunRes (Block × List ID)
  | [], b, ready => .ok (b, ready)
  | s :: rest, b, ready =>
    match b.actionGet? s with
    | none => .panicked "Invalid mutable reference to action"
    | some a =>
      match a.satisfyA pid with
      | none => .panicked "called Option::unwrap on a None value (Info.after)"
      | some (a, isr) =>
        satisfySuccs pid rest (b.setActionAt s a) (if isr then sinsert s ready else ready)

/-- The loop of `Block::satisfy` over the dependents of the node: every
dependent is marked expired and collected. -/
def expireDeps : List ID → Block → List ID → RunRes (Block × List ID)
  | [], b, ex => .ok (b, ex)
  | d :: rest, b, ex =>
    match b.actionGet? d with
    | none => .panicked "Invalid mutable reference to action"
    | some a => expireDeps rest (b.setActionAt d a.expireA) (sinsert d ex)

/-- `Block::satisfy`: returns the block plus the `(ready, expired)` pair. -/
def Block.satisfyB (b : Block) (id : ID) : RunRes (Block × List ID × List ID) :=
  match b.actionGet? id with
  | none => .panicked "called Option::unwrap on a None value (Block.action)"
  | some a =>
    (satisfySuccs id a.info.successors b []).bind fun p =>
      match p.1.actionGet? id with
      | none => .panicked "called Option::unwrap on a None value (Block.action)"
      | some a2 =>
        (expireDeps a2.info.dependents p.1 []).bind fun q =>
          .ok (q.1, p.2, q.2)

/-- `Block::wrap`: log the event, run the action's (I/O-only) finalizer,
then `satisfy`. -/
def Block.wrapB (b : Block) (id : ID) : RunRes (Block × List ID × List ID) :=
  let b := b.pushEvent (.wrap id)
  match b.actionGet? id with
  | none => .panicked "called Option::unwrap on a None value (Block.action)"
  | some _ => b.satisfyB id

/-- `Block::skip`: log the event, then `satisfy`. -/
def Block.skipB (b : Block) (id : ID) : RunRes (Block × List ID × List ID) :=
  (b.pushEvent (.skip id)).satisfyB id

/-- `Block::execute`: log START; the returned run command is recorded by
the dispatcher. -/
def Block.executeB (b : Block) (id : ID) : Block :=
  b.pushEvent (.start id)

/-- `Block::finish`: flush the event log to the log file. -/
def Block.finishB (b : Block) : Block :=
  { b with flushedLog := b.flushedLog ++ b.events, events := [] }

/-! ### Dispatcher -/

/-- The runtime state of `Dispatcher` (src/dispatch.rs); the message
channel `writer` is I/O and is omitted. -/
structure Dispatcher where
  block : Option Block := none
  queue : List ID := []
  active : List ID := []
  complete : List ID := []
  foreground : Option ID := none
  background : Option ID := none
  monitor_kb : Option ID := none

/-- `Dispatcher::new`. -/
def Dispatcher.new : Dispatcher := {}

/-- `Dispatcher::is_active`. -/
def Dispatcher.isActiveD (d : Dispatcher) : Bool := d.block.isSome

/-- The command value returned by one dispatcher operation: the batch of
run commands of the actions just executed, `Command::none()`, or the
message that emits the terminal `BlockComplete` signal. -/
inductive Cmd where
  | noneCmd
  | batch (ids : List ID)
  | blockComplete
deriving Repr, DecidableEq

/-- The external messages relevant to the scheduler.  The `Code`, `Value`,
`QueryResponse`, `KeyPress` and `UIEvent` arms of `Dispatcher::update`
only forward to per-action UI handlers and are out of scope. -/
inductive Msg where
  | actionComplete (id : ID)
  | interrupt
  | blockCompleteMsg

/-- The inner skip-cascade loop of `Dispatcher::next` (lines 136-145):
while the expired wave is non-empty, move the wave out of `queue` into
`complete` and call `block.skip(&id)` — with the id of the node that
*entered* the cascade, not the wave elements, exactly as the source
does. -/
def skipCascade : Nat → ID → Block → List ID → List ID → List ID → List ID →
    RunRes (Block × List ID × List ID × List ID)
  | _, _, blk, queue, complete, newReady, [] => .ok (blk, queue, complete, newReady)
  | 0, _, _, _, _, _, _ :: _ => .spin
  | fuel + 1, id, blk, queue, complete, newReady, x :: rest =>
    let expired := x :: rest
    let queue := expired.foldl (fun q y => sremove y q) queue
    let complete := expired.foldl (fun c y => sinsert y c) complete
    (blk.skipB id).bind fun r =>
      skipCascade fuel id r.1 queue complete (sextend newReady r.2.1) r.2.2

/-- The per-wave mutable state of `Dispatcher::next`. -/
structure NState where
  blk : Block
  queue : List ID
  active : List ID
  complete : List ID
  fg : Option ID
  bg : Option ID
  kb : Option ID
  commands : List ID
  newReady : List ID

/-- The dependents loop inside the start branch of `Dispatcher::next`:
collect every companion whose readiness is `true` — or unknown
(`unwrap_or(true)`) — into the next wave. -/
def depsLoop (blk : Block) : List ID → List ID → RunRes (List ID)
  | [], nr => .ok nr
  | d :: rest, nr =>
    match blk.actionGet? d with
    | none => .panicked "called Option::unwrap on a None value (Block.action)"
    | some a =>
      depsLoop blk rest
        (if (a.info.after.map List.isEmpty).getD true then sinsert d nr else nr)

/-- Fold the outcome of a finished skip cascade back into the wave state. -/
def skipDone (st : NState) (r : Block × List ID × List ID × List ID) : RunRes NState :=
  .ok { st with blk := r.1, queue := r.2.1, complete := r.2.2.1, newReady := r.2.2.2 }

/-- Process one ready id inside a wave of `Dispatcher::next`: an expired node
enters the skip cascade; otherwise the node claims the view, background
and keystroke slots it owns, folds its ready dependents into the next
wave, leaves the queue, is executed and becomes active. -/
def processId (fuel : Nat) (st : NState) (id : ID) : RunRes NState :=
  match st.blk.actionGet? id with
  | none => .panicked "called Option::unwrap on a None value (Block.action)"
  | some a =>
    if a.info.expired.getD false then
      (skipCascade fuel id st.blk st.queue st.complete st.newReady [id]).bind (skipDone st)
    else
      match a.hasViewA with
      | none => .panicked "not yet implemented"
      | some hv =>
        let st := if hv then { st with fg := some id } else st
        let st := if a.hasBackgroundA then { st with bg := some id } else st
        let st := if a.capturesKeystrokesA then { st with kb := some id } else st
        (depsLoop st.blk a.info.dependents st.newReady).bind fun nr =>
          .ok { st with
            newReady := nr,
            queue := sremove id st.queue,
            blk := st.blk.executeB id,
            active := sinsert id st.active,
            commands := st.commands ++ [id] }

/-- Process the ids of one wave in order. -/
def processList (fuel : Nat) : List ID → NState → RunRes NState
  | [], st => .ok st
  | id :: rest, st => (processId fuel st id).bind fun st => processList fuel rest st

/-- The outer wave loop of `Dispatcher::next`: while the ready set is
non-empty, process it and continue with the accumulated next wave. -/
def waveLoop : Nat → NState → List ID → RunRes NState
  | _, st, [] => .ok st
  | 0, _, _ :: _ => .spin
  | fuel + 1, st, r :: rest =>
    (processList fuel (r :: rest) { st with newReady := [] }).bind fun st =>
      waveLoop fuel st st.newReady

/-- The epilogue of `Dispatcher::next`: store the wave state back, then
emit the batched run commands, or nothing while actions remain active, or
the terminal `BlockComplete` signal when everything is drained — and hit
the deadlock panic otherwise. -/
def nextFinish (d : Dispatcher) (st : NState) : RunRes (Dispatcher × Cmd) :=
  let d := { d with
    block := some st.blk, queue := st.queue, active := st.active,
    complete := st.complete, foreground := st.fg, background := st.bg,
    monitor_kb := st.kb }
  if st.commands ≠ [] then .ok (d, .batch st.commands)
  else if st.active ≠ [] then .ok (d, .noneCmd)
  else if st.queue = [] then .ok (d, .blockComplete)
  else .panicked "Arrived at a deadlock; unable to reach some actions"

/-- `Dispatcher::next`: run the wave loop over the ready frontier, then
the epilogue. -/
def Dispatcher.nextD (fuel : Nat) (d : Dispatcher) (ready : List ID) :
    RunRes (Dispatcher × Cmd) :=
  match d.block with
  | none => .panicked "called Option::unwrap on a None value (Dispatcher.block)"
  | some blk =>
    (waveLoop fuel
      ⟨blk, d.queue, d.active, d.complete, d.foreground, d.background, d.monitor_kb,
       [], []⟩ ready).bind (nextFinish d)

/-- One wave of the completion cascade of `Dispatcher::complete`: every
wave element still active is moved to `complete` and wrapped, folding the
satisfied successors into `ready` and the expired dependents into the next
wave. -/
def wrapWave : List ID → Block → List ID → List ID → List ID → List ID →
    RunRes (Block × List ID × List ID × List ID × List ID)
  | [], blk, act, comp, ready, ne => .ok (blk, act, comp, ready, ne)
  | id :: rest, blk, act, comp, ready, ne =>
    if id ∈ act then
      (blk.wrapB id).bind fun r =>
        wrapWave rest r.1 (sremove id act) (sinsert id comp)
          (sextend ready r.2.1) (sextend ne r.2.2)
    else
      wrapWave rest blk act comp ready ne

/-- The cascading wrap loop of `Dispatcher::complete` (lines 102-115). -/
def wrapCascade : Nat → Block → List ID → List ID → List ID → List ID →
    RunRes (Block × List ID × List ID × List ID)
  | _, blk, act, comp, ready, [] => .ok (blk, act, comp, ready)
  | 0, _, _, _, _, _ :: _ => .spin
  | fuel + 1, blk, act, comp, ready, w :: rest =>
    (wrapWave (w :: rest) blk act comp ready []).bind fun r =>
      wrapCascade fuel r.1 r.2.1 r.2.2.1 r.2.2.2.1 r.2.2.2.2

/-- The epilogue of `Dispatcher::complete`: release the single-slot
trackers that point at now-complete ids, then advance with whatever became
ready. -/
def completeFinish (fuel : Nat) (d : Dispatcher)
    (r : Block × List ID × List ID × List ID) : RunRes (Dispatcher × Cmd) :=
  let comp := r.2.2.1
  let fg := match d.foreground with
    | some f => if f ∈ comp then none else some f
    | none => none
  let bg := match d.background with
    | some f => if f ∈ comp then none else some f
    | none => none
  let kb := match d.monitor_kb with
    | some f => if f ∈ comp then none else some f
    | none => none
  Dispatcher.nextD fuel
    { d with
      block := some r.1, active := r.2.1, complete := comp,
      foreground := fg, background := bg, monitor_kb := kb } r.2.2.2

/-- `Dispatcher::complete`: ignored when no block is loaded or the id is
already complete; otherwise run the wrap cascade, then the epilogue. -/
def Dispatcher.completeD (fuel : Nat) (d : Dispatcher) (id : ID) :
    RunRes (Dispatcher × Cmd) :=
  match d.block with
  | none => .ok (d, .noneCmd)
  | some blk =>
    if id ∈ d.complete then .ok (d, .noneCmd)
    else
      (wrapCascade fuel blk d.active d.complete [] [id]).bind (completeFinish fuel d)

/-- `Dispatcher::init`: queue every node of the block and seed the ready
frontier with the entry gate. -/
def Dispatcher.initD (fuel : Nat) (d : Dispatcher) (blk : Block) :
    RunRes (Dispatcher × Cmd) :=
  let d := { d with queue := sextend [] blk.actionIds, block := some blk }
  d.nextD fuel ["entry"]

/-- The forced-wrap loop of `Dispatcher::wrap_unfinished`: wrap every
active action (satisfy results discarded) and flush the event log. -/
def wrapActiveList : List ID → Block → RunRes Block
  | [], blk => .ok blk
  | id :: rest, blk => (blk.wrapB id).bind fun r => wrapActiveList rest r.1

/-- `Dispatcher::wrap_unfinished`. -/
def Dispatcher.wrapUnfinished (d : Dispatcher) : RunRes Dispatcher :=
  match d.block with
  | none => .panicked "called Option::unwrap on a None value (Dispatcher.block)"
  | some blk =>
    (wrapActiveList d.active blk).bind fun blk =>
      .ok { d with block := some blk.finishB }

/-- `Dispatcher::update`, restricted to the scheduler messages: a no-op
without a block; completion delegates to `complete`; interrupt and the
terminal signal force-wrap the active actions and clear the block, the
queue, the active and complete sets and the foreground slot — and, as in
the source, leave `background` and `monitor_kb` untouched. -/
def Dispatcher.updateD (fuel : Nat) (d : Dispatcher) (m : Msg) :
    RunRes (Dispatcher × Cmd) :=
  match d.block with
  | none => .ok (d, .noneCmd)
  | some _ =>
    match m with
    | .actionComplete id => d.completeD fuel id
    | .interrupt | .blockCompleteMsg =>
      d.wrapUnfinished.bind fun d =>
        .ok ({ d with
          block := none, queue := [], active := [],
          foreground := none, complete := [] }, .noneCmd)

/-! ### Concrete blocks and runs used by the claim theorems -/

/-- A declared action as it comes out of the YAML parser, before
`Block::init` runs: only `id`, `after` and `with` can be set, everything
else takes its (serde) default. -/
def decl (kind : Kind) (id : ID) (after : Option (List ID)) (with_ : Option ID) : Action :=
  .mk kind { id := id, with_ := with_, after := after } []

/-- A declared block whose run expires an action (`B`) that itself has a
`with`-dependent (`C`): all references resolve and there is no
self-reference, so the graph is valid. -/
def cascadeBlock : Block := { title := "c1", actions :=
  [decl .audio "X" none none,
   decl .audio "A" (some []) none,
   decl .audio "B" (some ["X"]) (some "A"),
   decl .audio "C" none (some "B")] }

/-- Load `cascadeBlock` into a fresh dispatcher (starts `X` and `A`). -/
def cascadeInit : RunRes (Dispatcher × Cmd) :=
  match Block.initB cascadeBlock 1 with
  | .ok blk => Dispatcher.initD 30 Dispatcher.new blk
  | .error e => .panicked e

/-- Deliver the completion signal of started action `A` (this expires
`B`). -/
def cascadeAfterA : RunRes (Dispatcher × Cmd) :=
  cascadeInit.bind fun p => p.1.completeD 30 "A"

/-- Deliver the completion signal of started action `X`, with arbitrary
fuel for the dispatcher loops (this makes expired `B` ready and enters the
skip cascade). -/
def cascadeAfterX (fuel : Nat) : RunRes (Dispatcher × Cmd) :=
  cascadeAfterA.bind fun p => p.1.completeD fuel "X"

/-- Literal node states of `cascadeBlock` during the run. -/
def infoE : Info := {
  id := "entry", after := some [], timeout := some 0,
  successors := ["X", "A", "B"], expired := some true }

/-- Node `X` after its predecessors completed. -/
def infoX : Info := { id := "X", after := some [], successors := ["B"] }

/-- Node `A` after its predecessors completed. -/
def infoA : Info := {
  id := "A", after := some [], dependents := ["B"], successors := ["exit"] }

/-- Node `B` once expired, with the given remaining predecessor set. -/
def infoB (aft : List ID) : Info := {
  id := "B", with_ := some "A", after := some aft,
  dependents := ["C"], successors := ["exit"], expired := some true }

/-- Node `C` with the given expiration flag. -/
def infoC (exp : Option Bool) : Info := {
  id := "C", with_ := some "B", successors := ["exit"], expired := exp }

/-- The exit gate with the given remaining predecessor set. -/
def infoExit (aft : List ID) : Info := {
  id := "exit", after := some aft, timeout := some 0, expired := some true }

/-- The runtime states of `cascadeBlock`, parameterized by the fields the
run changes. -/
def mkBlk (bAft exAft : List ID) (cExp : Option Bool) (E : List Event) : Block := {
  id := 1, title := "c1",
  actions := [.mk .nothing infoE [], .mk .audio infoX [], .mk .audio infoA [],
    .mk .audio (infoB bAft) [], .mk .audio (infoC cExp) [], .mk .nothing (infoExit exAft) []],
  id2action := [("entry", 0), ("X", 1), ("A", 2), ("B", 3), ("C", 4), ("exit", 5)],
  events := E, flushedLog := [] }

/-- Event log after init and completion of `A`. -/
def evPre : List Event := [.skip "entry", .start "X", .start "A", .wrap "A"]

/-- Block state after init and completion of `A`. -/
def blkPre : Block := mkBlk ["X"] ["B", "C"] none evPre

/-- Block state after the wrap cascade of `X`'s completion. -/
def blkC : Block := mkBlk [] ["B", "C"] none (evPre ++ [.wrap "X"])

/-- The fixed point of the skip cascade of expired `B`: only the event log
still changes from one iteration to the next. -/
def blkStar (E : List Event) : Block := mkBlk [] ["C"] (some true) E

/-- Dispatcher state after init and completion of `A`. -/
def preDisp : Dispatcher := {
  block := some blkPre, queue := ["B", "C", "exit"], active := ["X"],
  complete := ["entry", "A"] }

/-- Event log on entering the skip-cascade fixed point. -/
def evStar : List Event := evPre ++ [.wrap "X", .skip "B"]

/-- Queue on entering the skip-cascade fixed point. -/
def qStar : List ID := ["C", "exit"]

/-- Complete set on entering the skip-cascade fixed point. -/
def cStar : List ID := ["entry", "A", "X", "B"]

/-- Queue when expired `B` becomes ready. -/
def qPre : List ID := ["B", "C", "exit"]

/-- Complete set when expired `B` becomes ready. -/
def cPre : List ID := ["entry", "A", "X"]

/-- Wave state of `Dispatcher::next` when expired `B` becomes ready. -/
def stPre : NState := ⟨blkC, qPre, [], cPre, none, none, none, [], []⟩

/-- Dispatcher state entering `Dispatcher::next` with ready wave `{B}`. -/
def dC : Dispatcher := {
  block := some blkC, queue := qPre, active := [], complete := cPre }

/-- A declared block in which `B` is a ready `with`-dependent of `A` in
the same wave: `A` has `after = {}`, `B` has `after = {}` and
`with = A`. -/
def doubleBlock : Block := { title := "c2", actions :=
  [decl .audio "A" (some []) none,
   decl .audio "B" (some []) (some "A")] }

/-- Load `doubleBlock` into a fresh dispatcher. -/
def doubleRun : RunRes (Dispatcher × Cmd) :=
  match Block.initB doubleBlock 1 with
  | .ok blk => Dispatcher.initD 30 Dispatcher.new blk
  | .error e => .panicked e

/-- The event log right after loading `doubleBlock`. -/
def doubleEvents : List Event :=
  match doubleRun with
  | .ok (d, _) =>
    match d.block with
    | some b => b.events
    | none => []
  | _ => []

/-- The command batch returned by loading `doubleBlock`. -/
def doubleCmd : Option Cmd :=
  match doubleRun with
  | .ok (_, c) => some c
  | _ => none

/-- The per-node adjustment `flow::add_gates` applies to every listed
node, extracted from the loop so the gate theorem can state that the
threading of `finalists` does not interfere with it: insert `"entry"` into
a present `after` set and default an absent `with` to the external
companion. -/
def gateAdj (with_ : Option ID) (a : Action) : Action :=
  let info := a.info
  let info :=
    match info.after with
    | some s => { info with after := some (sinsert "entry" s) }
    | none => info
  if info.with_ = none then a.withInfo { info with with_ := with_ } else a.withInfo info

/-- Specification-side description of the exit gate's predecessor set,
following the spec's words: all node ids minus every id that appears in
any node's `after` set (the internal leaves). -/
def leaves (acts : List Action) : List ID :=
  (acts.map Action.idA).filter fun x =>
    acts.all fun a =>
      match a.info.after with
      | some s => decide (x ∉ s)
      | none => true

/-- The per-node part of the namespacing loop of template expansion
(extracted so the loop can be stated as a map): prefix the id, prefix a
present `after` set and union the outer `after` set into it; the node's
`with` is untouched. -/
def relabelOne (oid : ID) (oafter : Option (List ID)) (a : Action) : Action :=
  let info := a.info
  let info := { info with id := oid ++ "~" ++ info.id }
  let info :=
    match info.after with
    | some s =>
      let s := s.map (fun x => oid ++ "~" ++ x)
      let s :=
        match oafter with
        | some ids => sextend s ids
        | none => s
      { info with after := some s }
    | none => info
  a.withInfo info

/-- Apply the `<oid>~` prefix `n` times. -/
def prefixTimes (oid : ID) : Nat → ID → ID
  | 0, w => w
  | n + 1, w => oid ++ "~" ++ prefixTimes oid n w

/-- Outer template info of the concrete expansion counterexample: id `T`,
external predecessors `{P}`, companion `W`. -/
def c5Outer : Info := { id := "T", after := some ["P"], with_ := some "W" }

/-- Inner actions of the concrete expansion counterexample: `a` declares
`with = c` and no `after`; `b` declares the non-empty set
`after = {a}`. -/
def c5Inners : List Action :=
  [decl .audio "a" none (some "c"), decl .audio "b" (some ["a"]) none]

/-- A declared block whose second action declares `with` but no `after`. -/
def withOnlyBlock : Block := { title := "c6", actions :=
  [decl .audio "A" none none,
   decl .audio "B" none (some "A")] }

/-- The `after` field of a node of the initialized `withOnlyBlock`
(outer `none` when initialization failed or the id is absent). -/
def withOnlyAfter (id : ID) : Option (Option (List ID)) :=
  match Block.initB withOnlyBlock 1 with
  | .ok b => (b.actionGet? id).map (fun a => a.info.after)
  | .error _ => none

/-- The two-node template `T` of spec Scenario C. -/
def tmplT : Action :=
  .mk .template { id := "T" } [decl .audio "a" none none, decl .audio "b" none none]

/-- The declared block of spec Scenario C: template `T` followed by `X`
with `after = {T}`. -/
def scenCBlock : Block := { title := "c7", actions :=
  [tmplT, decl .audio "X" (some ["T"]) none] }

/-- The initialized Scenario C block. -/
def scenCRes : Except String Block := Block.initB scenCBlock 1

/-- The `after` field of a node of the initialized Scenario C block. -/
def scenCAfter (id : ID) : Option (Option (List ID)) :=
  match scenCRes with
  | .ok b => (b.actionGet? id).map (fun a => a.info.after)
  | .error _ => none

/-- Equality of set-as-lists as sets. -/
def setEq (s t : List ID) : Prop := ∀ x, x ∈ s ↔ x ∈ t

/-- The declared block of spec Scenario B: `A` with `after = {}`, `B` with
`with = A` and no `after`. -/
def sibBlock : Block := { title := "c8", actions :=
  [decl .audio "A" (some []) none,
   decl .audio "B" none (some "A")] }

/-- Load `sibBlock` and complete `B` (while `A` is still active). -/
def sibAfterB : RunRes (Dispatcher × Cmd) :=
  match Block.initB sibBlock 1 with
  | .ok blk =>
    (Dispatcher.initD 30 Dispatcher.new blk).bind fun p => p.1.completeD 30 "B"
  | .error e => .panicked e

/-- Then complete `A` (its dependent `B` has already completed). -/
def sibAfterA : RunRes (Dispatcher × Cmd) :=
  sibAfterB.bind fun p => p.1.completeD 30 "A"

/-- Project `B`'s expiration flag and completion membership out of a run
state. -/
def sibBState (r : RunRes (Dispatcher × Cmd)) : Option (Option Bool × Bool) :=
  match r with
  | .ok (d, _) =>
    match d.block with
    | some b => (b.actionGet? "B").map (fun a => (a.info.expired, decide ("B" ∈ d.complete)))
    | none => none
  | _ => none

/-- A declared block whose single action owns the background layer and
captures keystrokes. -/
def kbBlock : Block := { title := "c9", actions :=
  [.mk .audio { id := "A", after := some [], monitor_kb := true,
                background := some "img.png" } []] }

/-- Dispatcher state after loading `kbBlock` (action `A` active, both the
background and the keystroke tracker claimed by `A`). -/
def kbDisp : Dispatcher :=
  match Block.initB kbBlock 1 with
  | .ok blk =>
    match Dispatcher.initD 30 Dispatcher.new blk with
    | .ok (d, _) => d
    | _ => Dispatcher.new
  | .error _ => Dispatcher.new

/-- The value `Dispatcher::wrap_unfinished` leaves behind on `kbDisp`. -/
def kbDispW : Dispatcher :=
  match kbDisp.wrapUnfinished with
  | .ok d => d
  | _ => Dispatcher.new

/-- Whether an action tree is fresh out of the YAML parser as far as the
derived link fields go: `successors` and `dependents` are `#[serde(skip)]`
fields, so they are empty on every node, recursively.  The fuel argument
follows the one of `Action::init`. -/
def parsedN : Nat → Action → Bool
  | 0, _ => false
  | fuel + 1, a =>
    a.info.successors.isEmpty && a.info.dependents.isEmpty && a.kids.all (parsedN fuel)

/-- The safety invariant of claim C10: every id stored in a `successors`
set resolves to a node whose `after` set is assigned (so the unwrap inside
`Action::satisfy` cannot panic), and every id stored in a `dependents` set
resolves. -/
def Linked (b : Block) : Prop :=
  ∀ id a, b.actionGet? id = some a →
    (∀ s ∈ a.info.successors, ∃ c, b.actionGet? s = some c ∧ c.info.after.isSome = true) ∧
    (∀ dp ∈ a.info.dependents, ∃ c, b.actionGet? dp = some c)

/-- A node state on the way through graph construction: an unassigned
`after` only goes with a declared companion, and the derived link sets are
still empty. -/
def GN (a : Action) : Prop :=
  (a.info.after = none → a.info.with_ ≠ none) ∧
  a.info.successors = [] ∧ a.info.dependents = []

/-- Index consistency: the id-to-index map points every id at a node
carrying that id. -/
def IndexOk (b : Block) : Prop :=
  ∀ id i, mapGet? id b.id2action = some i → ∃ a, b.actions.get? i = some a ∧ a.idA = id

/-! ### General lemmas -/

/-- Projection of `withInfo`. -/
@[simp] theorem info_withInfo (a : Action) (i : Info) : (a.withInfo i).info = i := by
  cases a; rfl

/-- `withInfo` preserves the kind. -/
@[simp] theorem kind_withInfo (a : Action) (i : Info) : (a.withInfo i).kind = a.kind := by
  cases a; rfl

/-- `withInfo` preserves the children. -/
@[simp] theorem kids_withInfo (a : Action) (i : Info) : (a.withInfo i).kids = a.kids := by
  cases a; rfl

/-- Membership in a set-as-list after a removal implies membership
before. -/
theorem mem_of_mem_sremove {x y : ID} {s : List ID} (h : x ∈ sremove y s) : x ∈ s :=
  (List.mem_filter.mp h).1

/-- Replacing an info record by itself is the identity. -/
theorem withInfo_info (a : Action) : a.withInfo a.info = a := by cases a; rfl

/-- Successive info replacements collapse. -/
theorem withInfo_withInfo (a : Action) (i j : Info) :
    (a.withInfo i).withInfo j = a.withInfo j := by cases a; rfl

/-- Removing every element of `s` from a set-as-list is a filter. -/
theorem foldl_sremove (s : List ID) : ∀ fin : List ID,
    s.foldl (fun f x => sremove x f) fin = fin.filter (fun y => decide (y ∉ s)) := by
  induction s with
  | nil =>
    intro fin
    simp [List.foldl]
  | cons x s ih =>
    intro fin
    show s.foldl (fun f x => sremove x f) (sremove x fin) = _
    rw [ih]
    unfold sremove
    rw [List.filter_filter]
    refine List.filter_congr ?_
    intro y _
    simp [List.mem_cons, not_or, Bool.and_comm]

/-- The node list returned by the `add_gates` loop is a per-node map: the
`finalists` threading does not influence the node updates. -/
theorem gateLoop_fst (w : Option ID) (acts : List Action) : ∀ fin,
    (gateLoop w acts fin).1 = acts.map (gateAdj w) := by
  induction acts with
  | nil => intro fin; rfl
  | cons a acts ih =>
    intro fin
    show (gateLoop w (a :: acts) fin).1 = gateAdj w a :: acts.map (gateAdj w)
    unfold gateLoop
    simp only []
    cases ha : a.info.after with
    | none =>
      simp only [ha, gateAdj, ih]
      cases hw : a.info.with_ with
      | none => simp [hw, withInfo_info]
      | some v => simp [hw, withInfo_info]
    | some s =>
      simp only [ha, gateAdj, ih, info_withInfo]
      cases hw : a.info.with_ with
      | none => simp [hw, withInfo_withInfo]
      | some v => simp [hw, withInfo_withInfo]

/-- The `finalists` set returned by the `add_gates` loop filters the
initial set down to the ids referenced by no node's `after` set. -/
theorem gateLoop_snd (w : Option ID) (acts : List Action) : ∀ fin,
    (gateLoop w acts fin).2 = fin.filter (fun y => acts.all fun a =>
      match a.info.after with
      | some s => decide (y ∉ s)
      | none => true) := by
  induction acts with
  | nil =>
    intro fin
    show fin = _
    simp [List.all_nil]
  | cons a acts ih =>
    intro fin
    unfold gateLoop
    simp only []
    cases ha : a.info.after with
    | none =>
      simp only [ha]
      rw [ih]
      refine List.filter_congr ?_
      intro y _
      simp [List.all_cons, ha]
    | some s =>
      simp only [ha]
      rw [ih, foldl_sremove, List.filter_filter]
      refine List.filter_congr ?_
      intro y _
      simp [List.all_cons, ha, Bool.and_comm]

/-- Iterated prefixing commutes with one inner prefix. -/
theorem prefixTimes_shift (oid : ID) (n : Nat) (w : ID) :
    prefixTimes oid n (oid ++ "~" ++ w) = oid ++ "~" ++ prefixTimes oid n w := by
  induction n with
  | zero => rfl
  | succ n ih => show oid ++ "~" ++ prefixTimes oid n (oid ++ "~" ++ w) = _; rw [ih]; rfl

/-- The namespacing loop of template expansion transforms the inner nodes
by a per-node map (driven by the outer id and `after` set only). -/
theorem relabelInners_snd (inners : List Action) : ∀ outer : Info,
    (relabelInners outer inners).2 = inners.map (relabelOne outer.id outer.after) := by
  induction inners with
  | nil => intro outer; rfl
  | cons a rest ih =>
    intro outer
    unfold relabelInners
    cases ha : a.info.after with
    | none =>
      cases hw : outer.with_ with
      | none =>
        simp only [ha, hw, ih]
        unfold relabelOne
        simp [ha]
      | some w =>
        simp only [ha, hw, ih]
        unfold relabelOne
        simp [ha]
    | some s =>
      cases hw : outer.with_ with
      | none =>
        simp only [ha, hw, ih]
        unfold relabelOne
        simp [ha]
      | some w =>
        simp only [ha, hw, ih]
        unfold relabelOne
        simp [ha]

/-- The namespacing loop rewrites the *outer* info's `with` field once per
inner node (and nothing else of the outer info). -/
theorem relabelInners_fst (inners : List Action) : ∀ outer : Info,
    (relabelInners outer inners).1 =
      { outer with with_ := outer.with_.map (prefixTimes outer.id inners.length) } := by
  induction inners with
  | nil =>
    intro outer
    obtain ⟨i, w_, aft, mkb, bg, tmo, dp, su, ex⟩ := outer
    cases w_ <;> rfl
  | cons a rest ih =>
    intro outer
    obtain ⟨i, w_, aft, mkb, bg, tmo, dp, su, ex⟩ := outer
    cases w_ with
    | none =>
      show (relabelInners ⟨i, none, aft, mkb, bg, tmo, dp, su, ex⟩ rest).1 = _
      rw [ih]
      rfl
    | some w =>
      show (relabelInners ⟨i, some (i ++ "~" ++ w), aft, mkb, bg, tmo, dp, su, ex⟩ rest).1 = _
      rw [ih]
      show ({
        id := i, with_ := some (prefixTimes i rest.length (i ++ "~" ++ w)), after := aft,
        monitor_kb := mkb, background := bg, timeout := tmo, dependents := dp,
        successors := su, expired := ex } : Info) = _
      rw [prefixTimes_shift]
      rfl

/-! ### The skip cascade of `cascadeBlock` diverges -/

/-- One pass of `Block::skip` over the fixed-point state: the block is
unchanged apart from the event log, nothing becomes ready, and dependent
`C` is expired (and returned) again. -/
theorem skipB_blkStar (E : List Event) :
    (blkStar E).skipB "B" = .ok (blkStar (E ++ [Event.skip "B"]), [], ["C"]) := rfl

/-- The skip cascade never leaves the fixed-point state: for every fuel it
answers `spin`. -/
theorem skipCascade_fix_spin (n : Nat) : ∀ (E : List Event) (q c : List ID),
    skipCascade n "B" (blkStar E) q c [] ["C"] = RunRes.spin := by
  induction n with
  | zero => intro E q c; rfl
  | succ n ih =>
    intro E q c
    show skipCascade n "B" (blkStar (E ++ [Event.skip "B"])) (sremove "C" q)
      (sinsert "C" c) [] ["C"] = RunRes.spin
    exact ih _ _ _

/-- The wrap cascade of `X`'s completion terminates and makes expired `B`
ready. -/
theorem wrapCascadeX_eq (n : Nat) :
    wrapCascade (n + 2) blkPre ["X"] ["entry", "A"] [] ["X"] =
      .ok (blkC, [], cPre, ["B"]) := rfl

/-- `Dispatcher::next` on the ready wave `{B}` diverges in the skip
cascade for every fuel of shape `n + 2`. -/
theorem nextD_dC_spin (n : Nat) : Dispatcher.nextD (n + 2) dC ["B"] = RunRes.spin := by
  have h : skipCascade (n + 1) "B" blkC qPre cPre [] ["B"] = RunRes.spin := by
    show skipCascade n "B" (blkStar evStar) qStar cStar [] ["C"] = RunRes.spin
    exact skipCascade_fix_spin n _ _ _
  show RunRes.bind (RunRes.bind (RunRes.bind (RunRes.bind
      (skipCascade (n + 1) "B" blkC qPre cPre [] ["B"]) (skipDone stPre))
      (fun st => processList (n + 1) [] st))
      (fun st => waveLoop (n + 1) st st.newReady))
      (nextFinish dC) = RunRes.spin
  rw [h]
  rfl

/-- `Dispatcher::complete` on `X` at the pre-divergence state diverges for
every fuel of shape `n + 2`. -/
theorem completeD_X_spin (n : Nat) :
    Dispatcher.completeD (n + 2) preDisp "X" = RunRes.spin := by
  show RunRes.bind (wrapCascade (n + 2) blkPre ["X"] ["entry", "A"] [] ["X"])
      (completeFinish (n + 2) preDisp) = RunRes.spin
  rw [wrapCascadeX_eq n]
  show Dispatcher.nextD (n + 2) dC ["B"] = RunRes.spin
  exact nextD_dC_spin n

/-- C1: the claim states that for every valid graph, repeatedly delivering
completion signals for started actions empties `queue` and `active` and
yields exactly one terminal signal, every cascade pass terminating.  The
code violates this: `cascadeBlock` builds successfully (all references
resolve, no self-reference), the dispatcher starts `X` and `A`, completing
`A` succeeds (expiring `B`), but completing started action `X` never
returns — the skip cascade inside `Dispatcher::next` calls
`block.skip(&id)` with the original expired id on every iteration, so
expired `B`'s dependent `C` is returned as a fresh expired wave forever.
For every fuel the run answers `spin`, i.e. the source loops forever. -/
theorem C1_termination_violated :
    (∃ b, Block.initB cascadeBlock 1 = Except.ok b) ∧
    cascadeAfterA = RunRes.ok (preDisp, Cmd.noneCmd) ∧
    ∀ fuel, cascadeAfterX fuel = RunRes.spin := by
  refine ⟨⟨_, rfl⟩, rfl, ?_⟩
  intro fuel
  match fuel with
  | 0 => rfl
  | 1 => rfl
  | (n + 2) =>
    show Dispatcher.completeD (n + 2) preDisp "X" = RunRes.spin
    exact completeD_X_spin n

/-- C3: the claim states that the skip cascade visits an expired action
once, expires each dependent exactly once, and reaches a fixed point.  The
code violates this: on the reachable state `dC` (the state of
`cascadeBlock`'s run when expired `B` becomes ready), every pass of the
cascade skips `B` again and returns its dependent `C` as a freshly expired
wave — `Block::skip` applied to the fixed-point state re-expires `C` every
time, and `Dispatcher::next` never reaches a fixed point (it answers
`spin` for every fuel). -/
theorem C3_skip_cascade_not_idempotent :
    (∃ b, Block.initB cascadeBlock 1 = Except.ok b) ∧
    wrapCascade 2 blkPre ["X"] ["entry", "A"] [] ["X"] = .ok (blkC, [], cPre, ["B"]) ∧
    (∀ E, (blkStar E).skipB "B" =
      RunRes.ok (blkStar (E ++ [Event.skip "B"]), [], ["C"])) ∧
    ∀ fuel, Dispatcher.nextD fuel dC ["B"] = RunRes.spin := by
  refine ⟨⟨_, rfl⟩, rfl, fun E => skipB_blkStar E, ?_⟩
  intro fuel
  match fuel with
  | 0 => rfl
  | 1 => rfl
  | (n + 2) => exact nextD_dC_spin n

/-- C2 counterexample: the claim says no action is ever started more than
once.  Loading `doubleBlock` (valid: `A` and `B` both have `after = {}`
and `B` has `with = A`) starts `B` twice: the returned command batch is
`[A, B, B]` and the event log records `START B` twice — when `A` starts,
its ready dependent `B` is folded into the next wave although `B` is
started in the current one. -/
theorem C2_counterexample :
    doubleCmd = some (Cmd.batch ["A", "B", "B"]) ∧
    doubleEvents.count (Event.start "B") = 2 := ⟨rfl, rfl⟩

/-- C2 amended: an action's `after` set only shrinks under `satisfy`, and
readiness (`after` empty) is absorbing, so the not-ready-to-ready
transition happens at most once — but an action *can* be started more than
once: a ready `with`-dependent of a starting action is re-added to the
next wave without checking that it was already started (witnessed by
`doubleBlock`, whose log records `START B` twice). -/
theorem C2_amended (a : Action) (id : ID) (r : Action × Bool)
    (h : a.satisfyA id = some r) :
    ((∀ x ∈ r.1.afterA, x ∈ a.afterA) ∧
      (a.isReadyA = some true → r.1.isReadyA = some true)) ∧
    doubleEvents.count (Event.start "B") = 2 := by
  refine ⟨?_, rfl⟩
  unfold Action.satisfyA at h
  cases ha : a.info.after with
  | none => rw [ha] at h; exact absurd h (by simp)
  | some s =>
    rw [ha] at h
    simp only [Option.some.injEq] at h
    subst h
    constructor
    · intro x hx
      simp only [Action.afterA, info_withInfo] at hx ⊢
      rw [ha]
      exact mem_of_mem_sremove hx
    · intro hr
      simp only [Action.isReadyA, ha, Option.some.injEq] at hr
      simp only [Action.isReadyA, info_withInfo]
      rw [List.isEmpty_iff] at hr
      subst hr
      rfl

/-- Witness for `C2_amended` at a concrete action. -/
theorem C2_amended_witness :
    "q" ∈ (decl .audio "t" (some ["p", "q"]) none).afterA :=
  ((C2_amended (decl .audio "t" (some ["p", "q"]) none) "p"
    (decl .audio "t" (some ["q"]) none, false) rfl).1).1 "q" (by decide)

/-- C4: `add_gates` prepends the pre-expired no-op `entry` gate with
`after = P` and `with = C`, appends the pre-expired no-op `exit` gate
whose `after` set is exactly the listed ids that appear in no listed
node's `after` set, and inserts `"entry"` into every present `after` set
of the listed nodes (leaving an absent `after` absent). -/
theorem C4_gate_correctness (acts : List Action) (P : Option (List ID)) (C : Option ID) :
    add_gates acts P C =
      mkGate "entry" P C :: acts.map (gateAdj C) ++ [mkGate "exit" (some (leaves acts)) C] ∧
    (mkGate "entry" P C).info.after = P ∧
    (mkGate "entry" P C).info.with_ = C ∧
    (mkGate "entry" P C).kind = Kind.nothing ∧
    (mkGate "entry" P C).info.expired = some true ∧
    (mkGate "exit" (some (leaves acts)) C).kind = Kind.nothing ∧
    (mkGate "exit" (some (leaves acts)) C).info.expired = some true ∧
    (mkGate "exit" (some (leaves acts)) C).info.after = some (leaves acts) ∧
    (∀ x, x ∈ leaves acts ↔ x ∈ acts.map Action.idA ∧
      ∀ a ∈ acts, ∀ s, a.info.after = some s → x ∉ s) ∧
    (∀ a s, a.info.after = some s → (gateAdj C a).info.after = some (sinsert "entry" s)) ∧
    (∀ a, a.info.after = none → (gateAdj C a).info.after = none) := by
  refine ⟨?_, rfl, rfl, rfl, rfl, rfl, rfl, rfl, ?_, ?_, ?_⟩
  · show mkGate "entry" P C :: (gateLoop C acts (acts.map Action.idA)).1 ++
      [mkGate "exit" (some (gateLoop C acts (acts.map Action.idA)).2) C] = _
    rw [gateLoop_fst, gateLoop_snd]
    rfl
  · intro x
    unfold leaves
    rw [List.mem_filter, List.all_eq_true]
    constructor
    · rintro ⟨hx, hall⟩
      refine ⟨hx, ?_⟩
      intro a ha s hs
      have h := hall a ha
      rw [hs] at h
      simpa using h
    · rintro ⟨hx, hall⟩
      refine ⟨hx, ?_⟩
      intro a ha
      cases hs : a.info.after with
      | none => simp
      | some s => simpa using hall a ha s hs
  · intro a s hs
    unfold gateAdj
    simp only [hs]
    cases hw : a.info.with_ with
    | none => simp [hw]
    | some v => simp [hw]
  · intro a ha
    unfold gateAdj
    simp only [ha]
    cases hw : a.info.with_ with
    | none => simp [hw, ha]
    | some v => simp [hw, ha]

/-- Witness for `C4_gate_correctness` at a concrete node list. -/
theorem C4_gate_correctness_witness :
    add_gates c5Inners (some ["P"]) (some "W") =
      mkGate "entry" (some ["P"]) (some "W") :: c5Inners.map (gateAdj (some "W")) ++
        [mkGate "exit" (some (leaves c5Inners)) (some "W")] ∧
    ("b" : ID) ∈ leaves c5Inners :=
  ⟨(C4_gate_correctness c5Inners (some ["P"]) (some "W")).1,
   ((C4_gate_correctness c5Inners (some ["P"]) (some "W")).2.2.2.2.2.2.2.2.1 "b").mpr
     ⟨by decide, by decide⟩⟩

/-- C5 counterexample: the claim says the inner `with` reference is
prefixed, the outer `after` set is unioned into exactly the otherwise
empty inner predecessor sets, and the outer info is not rewritten.  On the
concrete template `T` (external `after = {P}`, companion `W`) with inners
`a` (`with = c`, no `after`) and `b` (`after = {a}`), the loop leaves
`a`'s `with` as `c` (not `T~c`), unions `P` into `b`'s *non-empty* set,
and rewrites the *outer* `with` to `T~T~W`. -/
theorem C5_counterexample :
    ((relabelInners c5Outer c5Inners).2.map (fun a => a.info.with_)) = [some "c", none] ∧
    (some "c" : Option ID) ≠ some ("T~" ++ "c") ∧
    (relabelInners c5Outer c5Inners).1.with_ = some "T~T~W" ∧
    ((relabelInners c5Outer c5Inners).2.map (fun a => a.info.after)) =
      [none, some ["T~a", "P"]] ∧
    ("P" : ID) ∈ ["T~a", "P"] :=
  ⟨rfl, by decide, rfl, rfl, by decide⟩

/-- C5 amended: the namespacing loop prefixes every inner id with
`<outer id>~`, prefixes every id of a present inner `after` set and
unions the outer `after` set into *every* present inner set (empty or
not, leaving an absent set absent), never rewrites the inner `with`
reference, and re-prefixes the *outer* info's `with` once per inner
node (the outer `after` is left unchanged). -/
theorem C5_amended (outer : Info) (inners : List Action) :
    (relabelInners outer inners).2 = inners.map (relabelOne outer.id outer.after) ∧
    (relabelInners outer inners).1 =
      { outer with with_ := outer.with_.map (prefixTimes outer.id inners.length) } ∧
    (∀ a s, a.info.after = some s → (relabelOne outer.id outer.after a).info.after =
      some (match outer.after with
        | some ids => sextend (s.map (fun x => outer.id ++ "~" ++ x)) ids
        | none => s.map (fun x => outer.id ++ "~" ++ x))) ∧
    (∀ a, a.info.after = none → (relabelOne outer.id outer.after a).info.after = none) ∧
    (∀ a, (relabelOne outer.id outer.after a).info.with_ = a.info.with_) ∧
    (∀ a, (relabelOne outer.id outer.after a).info.id = outer.id ++ "~" ++ a.info.id) := by
  refine ⟨relabelInners_snd inners outer, relabelInners_fst inners outer, ?_, ?_, ?_, ?_⟩
  · intro a s hs
    unfold relabelOne
    simp only [hs]
    cases outer.after <;> simp
  · intro a ha
    unfold relabelOne
    simp [ha]
  · intro a
    unfold relabelOne
    cases ha : a.info.after <;> simp [ha]
  · intro a
    unfold relabelOne
    cases ha : a.info.after <;> simp [ha]

/-- Witness for `C5_amended` at the concrete template. -/
theorem C5_amended_witness :
    (relabelInners c5Outer c5Inners).2 = c5Inners.map (relabelOne "T" (some ["P"])) ∧
    (relabelOne "T" (some ["P"]) (decl .audio "b" (some ["a"]) none)).info.after =
      some (sextend ["T~a"] ["P"]) :=
  ⟨(C5_amended c5Outer c5Inners).1,
   (C5_amended c5Outer c5Inners).2.2.1 (decl .audio "b" (some ["a"]) none) ["a"] rfl⟩

end TaskRunner

namespace TaskRunner

/-- C7 counterexample: the claim says that after expansion of Scenario C,
`X.after == {"T~exit"}`.  In fact the block-level `add_gates` pass has
also inserted the top-level `"entry"` gate into `X`'s declared set, so the
resolved set is `{"T~exit", "entry"}`, which contains an element other
than `"T~exit"`. -/
theorem C7_counterexample :
    (∃ b, scenCRes = Except.ok b) ∧
    scenCAfter "X" = some (some ["T~exit", "entry"]) ∧
    ("entry" : ID) ∈ ["T~exit", "entry"] ∧ ("entry" : ID) ≠ "T~exit" :=
  ⟨⟨_, rfl⟩, rfl, by decide, by decide⟩

/-- The reference-rewriting pass of `Action::verify`: on success, every
reference that matches an existing id is kept and every other reference
is rewritten to `<ref>~exit`; success means each reference resolves one
of the two ways. -/
theorem rewriteRefs_spec : ∀ (ids l l2 : List ID), rewriteRefs ids l = .ok l2 →
    l2 = l.map (fun x => if x ∈ ids then x else x ++ "~exit") ∧
    ∀ x ∈ l, x ∈ ids ∨ (x ++ "~exit") ∈ ids := by
  intro ids l
  induction l with
  | nil =>
    intro l2 h
    cases h
    exact ⟨rfl, by simp⟩
  | cons x rest ih =>
    intro l2 h
    unfold rewriteRefs at h
    split_ifs at h with h1 h2
    · cases hr : rewriteRefs ids rest with
      | error e => rw [hr] at h; exact absurd h (by simp)
      | ok rest2 =>
        simp only [hr] at h
        cases h
        obtain ⟨hmap, hres⟩ := ih rest2 hr
        refine ⟨by simp [h1, hmap], ?_⟩
        intro y hy
        rcases List.mem_cons.mp hy with rfl | hy2
        · exact Or.inl h1
        · exact hres y hy2
    · cases hr : rewriteRefs ids rest with
      | error e => rw [hr] at h; exact absurd h (by simp)
      | ok rest2 =>
        simp only [hr] at h
        cases h
        obtain ⟨hmap, hres⟩ := ih rest2 hr
        refine ⟨by simp [h1, hmap], ?_⟩
        intro y hy
        rcases List.mem_cons.mp hy with rfl | hy2
        · exact Or.inr h2
        · exact hres y hy2

/-- The redirection behavior of `Action::verify` on success, by the shape
of the node's `with` reference: a resolving `with` is kept and the
`after` set (when present) goes through `rewriteRefs`; an unresolved
`with` reference `w` is rewritten to `w~exit` with `w~entry` inserted
into the rewritten `after` set (or becoming the whole set when `after`
was absent); an absent `with` stays absent. -/
theorem verifyA_redirect (a : Action) (ids : List ID) (a2 : Action)
    (h : a.verifyA ids = .ok a2) :
    (∀ w, a.info.with_ = some w → w ∈ ids →
        a2.info.with_ = some w ∧
        ((a.info.after = none ∧ a2.info.after = none) ∨
         (∃ s s2, a.info.after = some s ∧ rewriteRefs ids s = .ok s2 ∧
           a2.info.after = some s2))) ∧
    (∀ w, a.info.with_ = some w → w ∉ ids →
        a2.info.with_ = some (w ++ "~exit") ∧
        ((a.info.after = none ∧ a2.info.after = some [w ++ "~entry"]) ∨
         (∃ s s2, a.info.after = some s ∧ rewriteRefs ids s = .ok s2 ∧
           a2.info.after = some (sinsert (w ++ "~entry") s2)))) ∧
    (a.info.with_ = none →
        a2.info.with_ = none ∧
        ((a.info.after = none ∧ a2.info.after = none) ∨
         (∃ s s2, a.info.after = some s ∧ rewriteRefs ids s = .ok s2 ∧
           a2.info.after = some s2))) := by
  cases ha : a.info.after with
  | none =>
    cases hw : a.info.with_ with
    | none =>
      simp only [Action.verifyA, ha, hw] at h
      split_ifs at h
      all_goals cases h
      all_goals exact ⟨fun w hww => absurd hww (by simp),
        fun w hww => absurd hww (by simp),
        fun _ => ⟨by simp, Or.inl ⟨rfl, by simp⟩⟩⟩
    | some w0 =>
      by_cases hin : w0 ∈ ids
      · simp only [Action.verifyA, ha, hw] at h
        rw [if_pos hin] at h
        split_ifs at h
        all_goals cases h
        all_goals exact ⟨fun w hww _ => by cases hww; exact ⟨by simp, Or.inl ⟨rfl, by simp⟩⟩,
          fun w hww hwnin => by cases hww; exact absurd hin hwnin,
          fun hnn => absurd hnn (by simp)⟩
      · simp only [Action.verifyA, ha, hw] at h
        rw [if_neg hin] at h
        split_ifs at h
        all_goals cases h
        all_goals exact ⟨fun w hww hwin => by cases hww; exact absurd hwin hin,
          fun w hww _ => by cases hww; exact ⟨by simp, Or.inl ⟨rfl, by simp⟩⟩,
          fun hnn => absurd hnn (by simp)⟩
  | some s0 =>
    cases hr : rewriteRefs ids s0 with
    | error e =>
      simp only [Action.verifyA, ha, hr] at h
      split_ifs at h <;> simp at h
    | ok s2 =>
      cases hw : a.info.with_ with
      | none =>
        simp only [Action.verifyA, ha, hw, hr] at h
        split_ifs at h
        all_goals cases h
        all_goals exact ⟨fun w hww => absurd hww (by simp),
          fun w hww => absurd hww (by simp),
          fun _ => ⟨by simp, Or.inr ⟨s0, s2, rfl, hr, by simp⟩⟩⟩
      | some w0 =>
        by_cases hin : w0 ∈ ids
        · simp only [Action.verifyA, ha, hw, hr] at h
          rw [if_pos hin] at h
          split_ifs at h
          all_goals cases h
          all_goals exact ⟨fun w hww _ => by
              cases hww
              exact ⟨by simp, Or.inr ⟨s0, s2, rfl, hr, by simp⟩⟩,
            fun w hww hwnin => by cases hww; exact absurd hin hwnin,
            fun hnn => absurd hnn (by simp)⟩
        · simp only [Action.verifyA, ha, hw, hr] at h
          rw [if_neg hin] at h
          split_ifs at h
          all_goals cases h
          all_goals exact ⟨fun w hww hwin => by cases hww; exact absurd hwin hin,
            fun w hww _ => by
              cases hww
              exact ⟨by simp, Or.inr ⟨s0, s2, rfl, hr, by simp⟩⟩,
            fun hnn => absurd hnn (by simp)⟩

/-- C7 amended: `Action::verify` performs the claimed template-boundary
redirection in general — a present `after` set goes through the
reference rewriting (references that resolve are kept, the others are
redirected to `<ref>~exit`, anything else is an error), and an
unresolved `with` reference `w` is rewritten to `w~exit` with `w~entry`
unioned into (or becoming) the `after` set.  In Scenario C the
redirection gives `X.after = {T~exit}` from the declared `{T}` as
claimed, but the resolved set also carries the block-level entry gate:
after expansion `X.after == {"entry", "T~exit"}` (as a set), Scenario
C's block builds successfully, and every internal node of the template
(`T~entry`, `T~a`, `T~b`, `T~exit`) carries `"entry"` among its
resolved predecessors. -/
theorem C7_amended :
    (∀ (ids l l2 : List ID), rewriteRefs ids l = .ok l2 →
        l2 = l.map (fun x => if x ∈ ids then x else x ++ "~exit") ∧
        ∀ x ∈ l, x ∈ ids ∨ (x ++ "~exit") ∈ ids) ∧
    (∀ (a : Action) (ids : List ID) (a2 : Action), a.verifyA ids = .ok a2 →
        (∀ w, a.info.with_ = some w → w ∈ ids →
            a2.info.with_ = some w ∧
            ((a.info.after = none ∧ a2.info.after = none) ∨
             (∃ s s2, a.info.after = some s ∧ rewriteRefs ids s = .ok s2 ∧
               a2.info.after = some s2))) ∧
        (∀ w, a.info.with_ = some w → w ∉ ids →
            a2.info.with_ = some (w ++ "~exit") ∧
            ((a.info.after = none ∧ a2.info.after = some [w ++ "~entry"]) ∨
             (∃ s s2, a.info.after = some s ∧ rewriteRefs ids s = .ok s2 ∧
               a2.info.after = some (sinsert (w ++ "~entry") s2)))) ∧
        (a.info.with_ = none →
            a2.info.with_ = none ∧
            ((a.info.after = none ∧ a2.info.after = none) ∨
             (∃ s s2, a.info.after = some s ∧ rewriteRefs ids s = .ok s2 ∧
               a2.info.after = some s2)))) ∧
    (∃ b, scenCRes = Except.ok b) ∧
    (∃ l, scenCAfter "X" = some (some l) ∧ setEq l ["entry", "T~exit"]) ∧
    (∃ l, scenCAfter "T~entry" = some (some l) ∧ "entry" ∈ l) ∧
    (∃ l, scenCAfter "T~a" = some (some l) ∧ "entry" ∈ l) ∧
    (∃ l, scenCAfter "T~b" = some (some l) ∧ "entry" ∈ l) ∧
    (∃ l, scenCAfter "T~exit" = some (some l) ∧ "entry" ∈ l) := by
  refine ⟨rewriteRefs_spec, verifyA_redirect,
    ⟨_, rfl⟩, ⟨["T~exit", "entry"], rfl, ?_⟩,
    ⟨_, rfl, by decide⟩, ⟨_, rfl, by decide⟩, ⟨_, rfl, by decide⟩, ⟨_, rfl, by decide⟩⟩
  intro x
  simp [or_comm]

/-- Witness for the amended C7 at concrete inputs, exercising the
`with`-redirection branch of `Action::verify` (unresolved companion `T`
with a present `after` set) and the reference rewriting. -/
theorem C7_amended_witness :
    (∃ a2, (decl .audio "V" (some ["q"]) (some "T")).verifyA
        ["V", "q", "T~entry", "T~exit"] = .ok a2 ∧
      a2.info.with_ = some "T~exit" ∧
      a2.info.after = some ["q", "T~entry"]) ∧
    ["q", "T~exit"] = ["q", "T"].map
      (fun x => if x ∈ (["V", "q", "T~entry", "T~exit"] : List ID) then x
        else x ++ "~exit") := by
  constructor
  · have hok : ((decl .audio "V" (some ["q"]) (some "T")).verifyA
        ["V", "q", "T~entry", "T~exit"]).toOption.isSome = true := rfl
    cases hv : (decl .audio "V" (some ["q"]) (some "T")).verifyA
        ["V", "q", "T~entry", "T~exit"] with
    | error e => rw [hv] at hok; simp [Except.toOption] at hok
    | ok a2 =>
      obtain ⟨hwv, hcase⟩ := (C7_amended.2.1 _ _ _ hv).2.1 "T" rfl (by decide)
      refine ⟨a2, rfl, hwv, ?_⟩
      rcases hcase with ⟨hn, _⟩ | ⟨s, s2, hs, hrw, haft⟩
      · exact absurd hn (by decide)
      · have hq : (some ["q"] : Option (List ID)) = some s := hs
        have hsq : s = ["q"] := (Option.some.inj hq).symm
        subst hsq
        have h0 : rewriteRefs ["V", "q", "T~entry", "T~exit"] ["q"] = .ok ["q"] := rfl
        rw [h0] at hrw
        cases hrw
        exact haft
  · exact (C7_amended.1 ["V", "q", "T~entry", "T~exit"] ["q", "T"] ["q", "T~exit"] rfl).1

/-- C8 counterexample: the claim says a completing action's dependent is
marked expired *only if* it had not yet itself completed.  In Scenario B,
after `B` completes (`B` is complete with `expired = none`), completing
`A` nevertheless sets `B.expired = some true` — `Block::satisfy` expires
every dependent unconditionally. -/
theorem C8_counterexample :
    sibBState sibAfterB = some (none, true) ∧
    sibBState sibAfterA = some (some true, true) := ⟨rfl, rfl⟩

/-- A wrap-cascade wave none of whose members is active changes nothing. -/
theorem wrapWave_notActive (ids : List ID) : ∀ blk act comp ready ne,
    (∀ i ∈ ids, i ∉ act) →
    wrapWave ids blk act comp ready ne = .ok (blk, act, comp, ready, ne) := by
  induction ids with
  | nil => intro blk act comp ready ne _; rfl
  | cons id rest ih =>
    intro blk act comp ready ne h
    unfold wrapWave
    rw [if_neg (h id (List.mem_cons_self id rest))]
    exact ih blk act comp ready ne (fun i hi => h i (List.mem_cons_of_mem id hi))

/-- C8 amended: `complete(id)` leaves the dispatcher unchanged and issues
no command when no block is loaded or the id is already complete; a wave
of the wrap cascade whose members are all inactive changes nothing (so no
further cascade occurs for an already-completed dependent); but the
dependent's expired flag itself is set unconditionally, even when the
dependent has already completed. -/
theorem C8_amended (fuel : Nat) (d : Dispatcher) (id : ID)
    (h : d.block = none ∨ id ∈ d.complete) :
    Dispatcher.completeD fuel d id = .ok (d, Cmd.noneCmd) ∧
    (∀ blk act comp ready ids, (∀ i ∈ ids, i ∉ act) →
      wrapCascade (fuel + 1) blk act comp ready ids = .ok (blk, act, comp, ready)) ∧
    sibBState sibAfterA = some (some true, true) := by
  refine ⟨?_, ?_, rfl⟩
  · cases hb : d.block with
    | none => unfold Dispatcher.completeD; rw [hb]
    | some blk =>
      have hc : id ∈ d.complete := by
        rcases h with h | h
        · rw [hb] at h; exact absurd h (by simp)
        · exact h
      simp [Dispatcher.completeD, hb, hc]
  · intro blk act comp ready ids hna
    cases ids with
    | nil => rfl
    | cons x rest =>
      show RunRes.bind (wrapWave (x :: rest) blk act comp ready []) _ = _
      rw [wrapWave_notActive (x :: rest) blk act comp ready [] hna]
      show wrapCascade fuel blk act comp ready [] = _
      cases fuel <;> rfl

/-- Witness for `C8_amended` at a concrete dispatcher. -/
theorem C8_amended_witness :
    Dispatcher.completeD 5 Dispatcher.new "A" = .ok (Dispatcher.new, Cmd.noneCmd) :=
  (C8_amended 5 Dispatcher.new "A" (Or.inl rfl)).1

end TaskRunner

namespace TaskRunner

/-- Node replacement does not touch the event log. -/
theorem events_setActionAt (b : Block) (id : ID) (a : Action) :
    (b.setActionAt id a).events = b.events := by
  unfold Block.setActionAt
  cases mapGet? id b.id2action <;> rfl

/-- The successors loop of `Block::satisfy` does not touch the event log. -/
theorem satisfySuccs_events (pid : ID) (l : List ID) : ∀ b ready r,
    satisfySuccs pid l b ready = .ok r → r.1.events = b.events := by
  induction l with
  | nil =>
    intro b ready r h
    simp only [satisfySuccs] at h
    cases h
    rfl
  | cons s rest ih =>
    intro b ready r h
    simp only [satisfySuccs] at h
    cases hg : b.actionGet? s with
    | none => simp [hg] at h
    | some a =>
      simp only [hg] at h
      cases hs : a.satisfyA pid with
      | none => simp [hs] at h
      | some p =>
        obtain ⟨a2, isr⟩ := p
        simp only [hs] at h
        have h2 := ih _ _ _ h
        rw [h2, events_setActionAt]

/-- The dependents loop of `Block::satisfy` does not touch the event log. -/
theorem expireDeps_events (l : List ID) : ∀ b ex r,
    expireDeps l b ex = .ok r → r.1.events = b.events := by
  induction l with
  | nil =>
    intro b ex r h
    simp only [expireDeps] at h
    cases h
    rfl
  | cons d rest ih =>
    intro b ex r h
    simp only [expireDeps] at h
    cases hg : b.actionGet? d with
    | none => simp [hg] at h
    | some a =>
      simp only [hg] at h
      have h2 := ih _ _ _ h
      rw [h2, events_setActionAt]

/-- `Block::satisfy` does not touch the event log. -/
theorem satisfyB_events (b : Block) (id : ID) (r : Block × List ID × List ID)
    (h : b.satisfyB id = .ok r) : r.1.events = b.events := by
  unfold Block.satisfyB at h
  cases hg : b.actionGet? id with
  | none => simp [hg] at h
  | some a =>
    simp only [hg] at h
    cases hs : satisfySuccs id a.info.successors b [] with
    | ok p =>
      rw [hs] at h
      simp only [RunRes.bind_ok] at h
      cases hg2 : p.1.actionGet? id with
      | none => simp [hg2] at h
      | some a2 =>
        simp only [hg2] at h
        cases he : expireDeps a2.info.dependents p.1 [] with
        | ok q =>
          rw [he] at h
          simp only [RunRes.bind_ok] at h
          cases h
          have e1 := satisfySuccs_events id a.info.successors b [] p hs
          have e2 := expireDeps_events a2.info.dependents p.1 [] q he
          simpa [e1] using e2
        | panicked m => simp [he] at h
        | spin => simp [he] at h
    | panicked m => simp [hs] at h
    | spin => simp [hs] at h

/-- `Block::wrap` appends exactly one WRAP event. -/
theorem wrapB_events (b : Block) (id : ID) (r : Block × List ID × List ID)
    (h : b.wrapB id = .ok r) : r.1.events = b.events ++ [Event.wrap id] := by
  unfold Block.wrapB at h
  cases hg : (b.pushEvent (.wrap id)).actionGet? id with
  | none => simp [hg] at h
  | some a =>
    simp only [hg] at h
    have h2 := satisfyB_events _ _ _ h
    simpa [Block.pushEvent] using h2

/-- The forced-wrap loop preserves logged events and logs a WRAP event
for every listed action. -/
theorem wrapActiveList_mem (l : List ID) : ∀ blk blkw,
    wrapActiveList l blk = .ok blkw →
    (∀ e ∈ blk.events, e ∈ blkw.events) ∧ (∀ id ∈ l, Event.wrap id ∈ blkw.events) := by
  induction l with
  | nil =>
    intro blk blkw h
    simp only [wrapActiveList] at h
    cases h
    exact ⟨fun e he => he, by simp⟩
  | cons id rest ih =>
    intro blk blkw h
    simp only [wrapActiveList] at h
    cases hw : blk.wrapB id with
    | ok r =>
      rw [hw] at h
      simp only [RunRes.bind_ok] at h
      have hr := ih _ _ h
      have he := wrapB_events _ _ _ hw
      constructor
      · intro e hee
        exact hr.1 e (by rw [he]; exact List.mem_append_left _ hee)
      · intro i hi
        rcases List.mem_cons.mp hi with h1 | h1
        · subst h1
          exact hr.1 _ (by rw [he]; exact List.mem_append_right _ (by simp))
        · exact hr.2 i h1
    | panicked m => simp [hw] at h
    | spin => simp [hw] at h

/-- C9 amended: on an Interrupt with a block loaded, the dispatcher wraps
every active action (the wrap events reach the flushed log), clears the
block, the queue, the active and complete sets and the foreground slot,
and returns to idle — but the `background` and `monitor_kb` single-slot
trackers are left untouched, not cleared as the claim states. -/
theorem C9_amended (d d' : Dispatcher) (h : d.wrapUnfinished = .ok d') :
    (∀ fuel, Dispatcher.updateD fuel d .interrupt =
      .ok ({ d' with
        block := none, queue := [], active := [],
        foreground := none, complete := [] }, Cmd.noneCmd)) ∧
    d'.background = d.background ∧
    d'.monitor_kb = d.monitor_kb ∧
    Dispatcher.isActiveD { d' with
      block := none, queue := [], active := [],
      foreground := none, complete := [] } = false ∧
    (∀ blk', d'.block = some blk' → ∀ id ∈ d.active, Event.wrap id ∈ blk'.flushedLog) := by
  cases hb : d.block with
  | none =>
    unfold Dispatcher.wrapUnfinished at h
    rw [hb] at h
    exact absurd h (by simp)
  | some blk =>
    unfold Dispatcher.wrapUnfinished at h
    rw [hb] at h
    cases hw : wrapActiveList d.active blk with
    | ok blkw =>
      simp only [hw, RunRes.bind_ok] at h
      cases h
      refine ⟨?_, rfl, rfl, rfl, ?_⟩
      · intro fuel
        unfold Dispatcher.updateD
        rw [hb]
        show (Dispatcher.wrapUnfinished d).bind _ = _
        have hu : d.wrapUnfinished = .ok { d with block := some blkw.finishB } := by
          unfold Dispatcher.wrapUnfinished
          rw [hb]
          show (wrapActiveList d.active blk).bind _ = _
          rw [hw]
          rfl
        rw [hu]
        rfl
      · intro blk2 hblk2 id hid
        have hb2 : blk2 = blkw.finishB := by
          have := hblk2
          simp only [Option.some.injEq] at this
          exact this.symm
        subst hb2
        have hm := (wrapActiveList_mem d.active blk blkw hw).2 id hid
        show Event.wrap id ∈ blkw.flushedLog ++ blkw.events
        exact List.mem_append_right _ hm
    | panicked m => simp [hw] at h
    | spin => simp [hw] at h

/-- Witness for `C9_amended` at the concrete `kbBlock` run. -/
theorem C9_amended_witness :
    kbDisp.wrapUnfinished = .ok kbDispW ∧
    Dispatcher.updateD 30 kbDisp .interrupt =
      .ok ({ kbDispW with
        block := none, queue := [], active := [],
        foreground := none, complete := [] }, Cmd.noneCmd) ∧
    kbDispW.background = kbDisp.background :=
  ⟨rfl, (C9_amended kbDisp kbDispW rfl).1 30, (C9_amended kbDisp kbDispW rfl).2.1⟩

/-- C9 counterexample: the claim says all three single-slot trackers are
cleared on Interrupt.  After loading `kbBlock` (whose action `A` owns the
background layer and captures keystrokes), an Interrupt clears the block,
queue, active, complete and foreground state but leaves
`background = some "A"` and `monitor_kb = some "A"` behind. -/
theorem C9_counterexample :
    kbDisp.background = some "A" ∧ kbDisp.monitor_kb = some "A" ∧
    (∃ r, Dispatcher.updateD 30 kbDisp .interrupt = .ok r ∧
      r.1.block = none ∧ r.1.queue = [] ∧ r.1.active = [] ∧ r.1.complete = [] ∧
      r.1.foreground = none ∧
      r.1.background = some "A" ∧ r.1.monitor_kb = some "A" ∧
      r.1.isActiveD = false) :=
  ⟨rfl, rfl, ⟨_, rfl, rfl, rfl, rfl, rfl, rfl, rfl, rfl, rfl⟩⟩

end TaskRunner

namespace TaskRunner

theorem checkId_shape (info : Info) (p : Nat) (i2 : Info)
    (h : checkId info p = .ok i2) : ∃ nid, i2 = { info with id := nid } := by
  unfold checkId at h
  split_ifs at h <;> first
    | (cases h; exact ⟨_, rfl⟩)
    | simp at h

theorem initInfo_ok (i : Info) (p : Nat) (l : Option ID) (i2 : Info)
    (h : initInfo i p l = .ok i2) :
    (i2.after = none → i2.with_ ≠ none) ∧
    i2.successors = i.successors ∧ i2.dependents = i.dependents ∧
    i2.with_ = i.with_ ∧
    (i.after = none → i.with_ = none →
      i2.after = some (match l with | some x => [x] | none => [])) ∧
    (∀ s, i.after = some s → i2.after = some s) := by
  cases hc : checkId i p with
  | error e => simp [initInfo, hc] at h
  | ok ic =>
    obtain ⟨nid, rfl⟩ := checkId_shape i p ic hc
    cases hia : i.after with
    | none =>
      cases hiw : i.with_ with
      | none =>
        cases l with
        | none =>
          simp only [initInfo, hc, hia, hiw] at h
          split_ifs at h <;> cases h <;>
            exact ⟨by simp, rfl, rfl, rfl, fun _ _ => rfl, fun s hs => absurd hs (by simp)⟩
        | some x =>
          simp only [initInfo, hc, hia, hiw] at h
          split_ifs at h <;> cases h <;>
            exact ⟨by simp, rfl, rfl, rfl, fun _ _ => rfl, fun s hs => absurd hs (by simp)⟩
      | some w =>
        simp only [initInfo, hc, hia, hiw] at h
        split_ifs at h <;> cases h <;>
          exact ⟨by simp, rfl, rfl, rfl,
            fun _ h2 => absurd h2 (by simp), fun s hs => absurd hs (by simp)⟩
    | some t =>
      cases hiw : i.with_ with
      | none =>
        simp only [initInfo, hc, hia, hiw] at h
        split_ifs at h <;> cases h <;>
          exact ⟨by simp, rfl, rfl, rfl, fun h1 _ => absurd h1 (by simp),
            fun s hs => by cases hs; rfl⟩
      | some w =>
        simp only [initInfo, hc, hia, hiw] at h
        split_ifs at h <;> cases h <;>
          exact ⟨by simp, rfl, rfl, rfl, fun h1 _ => absurd h1 (by simp),
            fun s hs => by cases hs; rfl⟩

theorem initActions_all {f : Action → Nat → Option ID → Except String Action}
    {dupMsg : ID → String} (P : Action → Bool) (Q : Action → Prop)
    (hf : ∀ a p l a2, P a = true → f a p l = .ok a2 → Q a2) :
    ∀ (l : List Action) i last ids l2, l.all P = true →
      initActions f dupMsg l i last ids = .ok l2 → ∀ x ∈ l2, Q x := by
  intro l
  induction l with
  | nil =>
    intro i last ids l2 _ h x hx
    simp only [initActions] at h
    cases h
    cases hx
  | cons a rest ih =>
    intro i last ids l2 hp h x hx
    rw [List.all_cons, Bool.and_eq_true] at hp
    simp only [initActions] at h
    cases hfa : f a (i + 1) last with
    | error e => simp [hfa] at h
    | ok a2 =>
      simp only [hfa] at h
      split_ifs at h with hdup
      cases hrest : initActions f dupMsg rest (i + 1) (some a2.idA) (sinsert a2.idA ids) with
      | error e => simp [hrest] at h
      | ok rest2 =>
        simp only [hrest] at h
        cases h
        rcases List.mem_cons.mp hx with h1 | h1
        · subst h1; exact hf a (i + 1) last x hp.1 hfa
        · exact ih (i + 1) (some a2.idA) (sinsert a2.idA ids) rest2 hp.2 hrest x h1

theorem spliceTemplates_all {Q : Action → Prop} :
    ∀ l : List Action, (∀ x ∈ l, (Q x ∧ ∀ y ∈ x.kids, Q y)) →
      ∀ y ∈ spliceTemplates l, Q y := by
  intro l
  induction l with
  | nil => intro _ y hy; cases hy
  | cons a rest ih =>
    intro h y hy
    unfold spliceTemplates at hy
    cases hk : a.kind with
    | template =>
      rw [hk] at hy
      rcases List.mem_append.mp hy with h1 | h1
      · exact (h a (List.mem_cons_self a rest)).2 y h1
      · exact ih (fun x hx => h x (List.mem_cons_of_mem a hx)) y h1
    | nothing =>
      rw [hk] at hy
      rcases List.mem_cons.mp hy with h1 | h1
      · subst h1; exact (h y (List.mem_cons_self y rest)).1
      · exact ih (fun x hx => h x (List.mem_cons_of_mem a hx)) y h1
    | instruction =>
      rw [hk] at hy
      rcases List.mem_cons.mp hy with h1 | h1
      · subst h1; exact (h y (List.mem_cons_self y rest)).1
      · exact ih (fun x hx => h x (List.mem_cons_of_mem a hx)) y h1
    | selection =>
      rw [hk] at hy
      rcases List.mem_cons.mp hy with h1 | h1
      · subst h1; exact (h y (List.mem_cons_self y rest)).1
      · exact ih (fun x hx => h x (List.mem_cons_of_mem a hx)) y h1
    | audio =>
      rw [hk] at hy
      rcases List.mem_cons.mp hy with h1 | h1
      · subst h1; exact (h y (List.mem_cons_self y rest)).1
      · exact ih (fun x hx => h x (List.mem_cons_of_mem a hx)) y h1
    | image =>
      rw [hk] at hy
      rcases List.mem_cons.mp hy with h1 | h1
      · subst h1; exact (h y (List.mem_cons_self y rest)).1
      · exact ih (fun x hx => h x (List.mem_cons_of_mem a hx)) y h1
    | question =>
      rw [hk] at hy
      rcases List.mem_cons.mp hy with h1 | h1
      · subst h1; exact (h y (List.mem_cons_self y rest)).1
      · exact ih (fun x hx => h x (List.mem_cons_of_mem a hx)) y h1

theorem relabelOne_GN (oid : ID) (oafter : Option (List ID)) (a : Action)
    (h : GN a) : GN (relabelOne oid oafter a) := by
  obtain ⟨h1, h2, h3⟩ := h
  cases ha : a.info.after with
  | none =>
    unfold relabelOne
    simp only [ha]
    exact ⟨fun _ => by simpa using h1 ha, by simpa using h2, by simpa using h3⟩
  | some s =>
    unfold relabelOne
    simp only [ha]
    refine ⟨fun hx => ?_, by simpa using h2, by simpa using h3⟩
    simp at hx

theorem gateAdj_GN (C : Option ID) (a : Action) (h : GN a) : GN (gateAdj C a) := by
  obtain ⟨h1, h2, h3⟩ := h
  cases ha : a.info.after with
  | none =>
    cases hw : a.info.with_ with
    | none => exact absurd hw (h1 ha)
    | some w =>
      unfold gateAdj
      simp only [ha, hw]
      rw [if_neg (by simp)]
      exact ⟨fun _ => by simp [hw], by simpa using h2, by simpa using h3⟩
  | some s =>
    unfold gateAdj
    simp only [ha]
    split_ifs <;>
      exact ⟨fun hx => by simp at hx, by simpa using h2, by simpa using h3⟩

theorem modifyAt_all {Q : Action → Prop} (l : List Action) (i : Nat) (f : Action → Action)
    (hl : ∀ x ∈ l, Q x) (hfp : ∀ a, Q a → Q (f a)) : ∀ x ∈ modifyAt l i f, Q x := by
  unfold modifyAt
  cases hg : l.get? i with
  | none => exact hl
  | some a =>
    intro x hx
    rcases List.mem_or_eq_of_mem_set hx with h1 | h1
    · exact hl x h1
    · subst h1; exact hfp a (hl a (List.get?_mem hg))

theorem setIdA_GN (a : Action) (nid : ID) (h : GN a) : GN (a.setIdA nid) := by
  obtain ⟨h1, h2, h3⟩ := h
  refine ⟨fun hx => ?_, ?_, ?_⟩
  · simpa [Action.setIdA] using h1 (by simpa [Action.setIdA] using hx)
  · simpa [Action.setIdA] using h2
  · simpa [Action.setIdA] using h3

theorem renameEnds_GN (en ex : ID) (l : List Action) (hl : ∀ x ∈ l, GN x) :
    ∀ x ∈ renameEnds en ex l, GN x := by
  unfold renameEnds
  exact modifyAt_all _ _ _ (modifyAt_all _ _ _ hl (fun a ha => setIdA_GN a en ha))
    (fun a ha => setIdA_GN a ex ha)

theorem add_gates_GN (acts : List Action) (P : Option (List ID)) (C : Option ID)
    (hPC : P = none → C ≠ none) (hacts : ∀ x ∈ acts, GN x) :
    ∀ x ∈ add_gates acts P C, GN x := by
  intro x hx
  have hx2 : x ∈ mkGate "entry" P C :: (gateLoop C acts (acts.map Action.idA)).1 ++
      [mkGate "exit" (some (gateLoop C acts (acts.map Action.idA)).2) C] := hx
  rcases List.mem_cons.mp hx2 with h1 | h1
  · subst h1
    exact ⟨fun hp => hPC hp, rfl, rfl⟩
  · rcases List.mem_append.mp h1 with h2 | h2
    · rw [gateLoop_fst] at h2
      rcases List.mem_map.mp h2 with ⟨y, hy, rfl⟩
      exact gateAdj_GN C y (hacts y hy)
    · rcases List.mem_cons.mp h2 with h3 | h3
      · subst h3
        exact ⟨fun hp => Option.noConfusion hp, rfl, rfl⟩
      · cases h3

theorem initA_GN : ∀ fuel a pos last depth a2,
    parsedN fuel a = true →
    Action.initA fuel a pos last depth = .ok a2 →
    GN a2 ∧ ∀ x ∈ a2.kids, GN x := by
  intro fuel
  induction fuel with
  | zero =>
    intro a pos last depth a2 _ h
    simp [Action.initA] at h
  | succ fuel ih =>
    intro a pos last depth a2 hp h
    simp only [parsedN, Bool.and_eq_true] at hp
    obtain ⟨⟨hps, hpd⟩, hpk⟩ := hp
    rw [List.isEmpty_iff] at hps hpd
    unfold Action.initA at h
    split_ifs at h
    cases hi : initInfo a.info pos last with
    | error e => simp [hi] at h
    | ok info =>
      simp only [hi] at h
      obtain ⟨g1, g2, g3, g4, g5, g6⟩ := initInfo_ok a.info pos last info hi
      cases hk : a.kind with
      | nothing =>
        rw [hk] at h
        cases h
        refine ⟨⟨?_, ?_, ?_⟩, fun x hx => absurd hx (by simp [Action.kids])⟩
        · intro hn hc
          refine g1 ?_ ?_
          · split_ifs at hn <;> exact hn
          · split_ifs at hc <;> exact hc
        · show (if info.timeout = none then { info with timeout := some 0 } else info).successors = []
          split_ifs <;> (show info.successors = []; rw [g2, hps])
        · show (if info.timeout = none then { info with timeout := some 0 } else info).dependents = []
          split_ifs <;> (show info.dependents = []; rw [g3, hpd])
      | template =>
        rw [hk] at h
        cases hin : initActions (fun a p l => Action.initA fuel a p l (depth + 1))
            (fun id => "Action ID `" ++ id ++ "` used more than once in template")
            a.kids 0 none [] with
        | error e => rw [hin] at h; exact absurd h (by simp)
        | ok inners =>
          rw [hin] at h
          cases h
          have hkids : ∀ x ∈ inners, GN x ∧ ∀ y ∈ x.kids, GN y :=
            initActions_all (parsedN fuel) (fun x => GN x ∧ ∀ y ∈ x.kids, GN y)
              (fun a p l a2 hP hf => ih a p l (depth + 1) a2 hP hf)
              a.kids 0 none [] inners hpk hin
          have hsp : ∀ y ∈ spliceTemplates inners, GN y := spliceTemplates_all _ hkids
          have hrel : ∀ y ∈ (relabelInners info (spliceTemplates inners)).2, GN y := by
            rw [relabelInners_snd]
            intro y hy
            rcases List.mem_map.mp hy with ⟨x, hx, rfl⟩
            exact relabelOne_GN _ _ _ (hsp x hx)
          have hfst := relabelInners_fst (spliceTemplates inners) info
          have hPCgate : (relabelInners info (spliceTemplates inners)).1.after = none →
              (relabelInners info (spliceTemplates inners)).1.with_ ≠ none := by
            rw [hfst]
            intro hPn hCn
            rw [Option.map_eq_none'] at hCn
            exact (g1 (by simpa using hPn)) hCn
          have hgate := add_gates_GN (relabelInners info (spliceTemplates inners)).2
            (relabelInners info (spliceTemplates inners)).1.after
            (relabelInners info (spliceTemplates inners)).1.with_
            hPCgate hrel
          constructor
          · refine ⟨?_, ?_, ?_⟩
            · show (relabelInners info (spliceTemplates inners)).1.after = none →
                (relabelInners info (spliceTemplates inners)).1.with_ ≠ none
              exact hPCgate
            · show (relabelInners info (spliceTemplates inners)).1.successors = []
              rw [hfst]
              show info.successors = []
              rw [g2, hps]
            · show (relabelInners info (spliceTemplates inners)).1.dependents = []
              rw [hfst]
              show info.dependents = []
              rw [g3, hpd]
          · intro x hx
            exact renameEnds_GN _ _ _ hgate x hx
      | instruction =>
        rw [hk] at h
        cases h
        exact ⟨⟨g1, by show info.successors = []; rw [g2, hps],
          by show info.dependents = []; rw [g3, hpd]⟩,
          fun x hx => absurd hx (by simp [Action.kids])⟩
      | selection =>
        rw [hk] at h
        cases h
        exact ⟨⟨g1, by show info.successors = []; rw [g2, hps],
          by show info.dependents = []; rw [g3, hpd]⟩,
          fun x hx => absurd hx (by simp [Action.kids])⟩
      | audio =>
        rw [hk] at h
        cases h
        exact ⟨⟨g1, by show info.successors = []; rw [g2, hps],
          by show info.dependents = []; rw [g3, hpd]⟩,
          fun x hx => absurd hx (by simp [Action.kids])⟩
      | image =>
        rw [hk] at h
        cases h
        exact ⟨⟨g1, by show info.successors = []; rw [g2, hps],
          by show info.dependents = []; rw [g3, hpd]⟩,
          fun x hx => absurd hx (by simp [Action.kids])⟩
      | question =>
        rw [hk] at h
        cases h
        exact ⟨⟨g1, by show info.successors = []; rw [g2, hps],
          by show info.dependents = []; rw [g3, hpd]⟩,
          fun x hx => absurd hx (by simp [Action.kids])⟩


/-- Membership after a set-as-list insertion. -/
theorem mem_sinsert (x y : ID) (s : List ID) : y ∈ sinsert x s ↔ y ∈ s ∨ y = x := by
  unfold sinsert
  split_ifs with h
  · constructor
    · exact fun hy => Or.inl hy
    · rintro (hy | rfl)
      · exact hy
      · exact h
  · simp

/-- Lookup after an overwrite-insert into the id-to-index map. -/
theorem mapGet?_mapInsert : ∀ (m : List (ID × Nat)) (k id : ID) (v : Nat),
    mapGet? id (mapInsert k v m) = if id = k then some v else mapGet? id m := by
  intro m
  induction m with
  | nil =>
    intro k id v
    by_cases h : id = k <;> simp [mapInsert, mapGet?, List.find?, h, Ne.symm]
  | cons p rest ih =>
    intro k id v
    obtain ⟨k2, v2⟩ := p
    by_cases hk : k2 = k
    · subst hk
      by_cases hid : id = k2
      · simp [mapInsert, mapGet?, List.find?, hid]
      · simp [mapInsert, mapGet?, List.find?, hid, Ne.symm hid]
    · by_cases hid : id = k2
      · subst hid
        simp only [mapInsert, if_neg hk]
        have hik : ¬ id = k := fun h => hk (h ▸ rfl)
        simp [mapGet?, List.find?, if_neg hik]
      · simp only [mapInsert, if_neg hk]
        have h1 : mapGet? id ((k2, v2) :: mapInsert k v rest) = mapGet? id (mapInsert k v rest) := by
          simp [mapGet?, List.find?, hid, Ne.symm]
        have h2 : mapGet? id ((k2, v2) :: rest) = mapGet? id rest := by
          simp [mapGet?, List.find?, hid, Ne.symm]
        rw [h1, h2, ih]

/-- Soundness of the index-building loop, for an arbitrary target
predicate `Good` satisfied by the incoming map and the listed nodes. -/
theorem buildIndexFrom_sound (Good : ID → Nat → Prop) :
    ∀ (l : List Action) (i : Nat) (m : List (ID × Nat)),
      (∀ id j, mapGet? id m = some j → Good id j) →
      (∀ k a, l.get? k = some a → Good a.idA (i + k)) →
      ∀ id j, mapGet? id (buildIndexFrom i l m) = some j → Good id j := by
  intro l
  induction l with
  | nil =>
    intro i m hm _ id j h
    exact hm id j h
  | cons a rest ih =>
    intro i m hm hl id j h
    refine ih (i + 1) (mapInsert a.idA i m) ?_ ?_ id j h
    · intro id2 j2 hj
      rw [mapGet?_mapInsert] at hj
      split_ifs at hj with hik
      · cases hj
        subst hik
        have := hl 0 a rfl
        simpa using this
      · exact hm id2 j2 hj
    · intro k b hb
      have := hl (k + 1) b (by simpa using hb)
      rwa [show i + (k + 1) = (i + 1) + k by omega] at this

/-- A successful lookup splits into an index hit and a list access. -/
theorem actionGet?_eq_some (b : Block) (t : ID) (c : Action)
    (h : b.actionGet? t = some c) :
    ∃ i, mapGet? t b.id2action = some i ∧ b.actions.get? i = some c := by
  unfold Block.actionGet? at h
  exact Option.bind_eq_some.mp h

/-- A node reached through the index is a member of the node list. -/
theorem actionGet?_mem (b : Block) (t : ID) (c : Action)
    (h : b.actionGet? t = some c) : c ∈ b.actions := by
  obtain ⟨i, _, h2⟩ := actionGet?_eq_some b t c h
  exact List.get?_mem h2

/-- On a consistent index, a resolved node carries the id it was looked
up by. -/
theorem actionGet?_idA (b : Block) (t : ID) (c : Action)
    (hIdx : IndexOk b) (h : b.actionGet? t = some c) : c.idA = t := by
  obtain ⟨i, h1, h2⟩ := actionGet?_eq_some b t c h
  obtain ⟨d, hd1, hd2⟩ := hIdx t i h1
  rw [h2] at hd1
  cases hd1
  exact hd2

/-- `setActionAt` leaves the index untouched. -/
theorem id2action_setActionAt (b : Block) (t : ID) (c : Action) :
    (b.setActionAt t c).id2action = b.id2action := by
  unfold Block.setActionAt
  cases mapGet? t b.id2action <;> rfl

/-- Pointwise description of lookups after a write through the index: on
a consistent index, writing at `t` changes the resolution of `t` and of
no other id. -/
theorem actionGet?_set (b : Block) (t : ID) (c c2 : Action) (id : ID)
    (hIdx : IndexOk b) (hget : b.actionGet? t = some c) :
    (b.setActionAt t c2).actionGet? id =
      if id = t then some c2 else b.actionGet? id := by
  obtain ⟨i, hti, hgi⟩ := actionGet?_eq_some b t c hget
  have hlen : i < b.actions.length := (List.get?_eq_some.mp hgi).1
  have hset : b.setActionAt t c2 = { b with actions := b.actions.set i c2 } := by
    unfold Block.setActionAt
    rw [hti]
  rw [hset]
  show (mapGet? id b.id2action).bind (fun j => (b.actions.set i c2).get? j) = _
  split_ifs with hit
  · subst hit
    rw [hti]
    show (b.actions.set i c2).get? i = some c2
    exact List.get?_set_eq_of_lt c2 hlen
  · cases hj : mapGet? id b.id2action with
    | none =>
      show none = b.actionGet? id
      unfold Block.actionGet?
      rw [hj]
      rfl
    | some j =>
      obtain ⟨d, hd1, hd2⟩ := hIdx id j hj
      obtain ⟨e, he1, he2⟩ := hIdx t i hti
      rw [hgi] at he1
      cases he1
      have hji : i ≠ j := by
        intro hij
        subst hij
        rw [hd1] at hgi
        cases hgi
        exact hit (hd2.symm.trans he2)
      show (b.actions.set i c2).get? j = b.actionGet? id
      rw [List.get?_set_ne c2 b.actions hji]
      unfold Block.actionGet?
      rw [hj]
      rfl

/-- Writing a node that keeps its id preserves index consistency. -/
theorem IndexOk_set (b : Block) (t : ID) (c c2 : Action)
    (hIdx : IndexOk b) (hget : b.actionGet? t = some c)
    (hid : c2.idA = c.idA) : IndexOk (b.setActionAt t c2) := by
  obtain ⟨i, hti, hgi⟩ := actionGet?_eq_some b t c hget
  have hlen : i < b.actions.length := (List.get?_eq_some.mp hgi).1
  have hset : b.setActionAt t c2 = { b with actions := b.actions.set i c2 } := by
    unfold Block.setActionAt
    rw [hti]
  rw [hset]
  intro id j hj
  have hj2 : mapGet? id b.id2action = some j := hj
  obtain ⟨d, hd1, hd2⟩ := hIdx id j hj2
  by_cases hij : j = i
  · subst hij
    rw [hgi] at hd1
    cases hd1
    exact ⟨c2, List.get?_set_eq_of_lt c2 hlen, by rw [hid, hd2]⟩
  · exact ⟨d, by rw [List.get?_set_ne c2 b.actions (Ne.symm hij)]; exact hd1, hd2⟩


/-- Writing a node preserves the link invariant whenever the new node
keeps an assigned `after` assigned and every new link it carries resolves
appropriately in the old block. -/
theorem Linked_set (b : Block) (t : ID) (c c2 : Action)
    (hIdx : IndexOk b) (hL : Linked b) (hget : b.actionGet? t = some c)
    (haft : c.info.after.isSome = true → c2.info.after.isSome = true)
    (hsucc : ∀ s ∈ c2.info.successors, s ∈ c.info.successors ∨
      ∃ la, b.actionGet? s = some la ∧ la.info.after.isSome = true)
    (hdep : ∀ dp ∈ c2.info.dependents, dp ∈ c.info.dependents ∨
      (b.actionGet? dp).isSome = true) :
    Linked (b.setActionAt t c2) := by
  have htrans : ∀ s la, b.actionGet? s = some la → la.info.after.isSome = true →
      ∃ d, (b.setActionAt t c2).actionGet? s = some d ∧ d.info.after.isSome = true := by
    intro s la hla hlaft
    rw [actionGet?_set b t c c2 s hIdx hget]
    split_ifs with hst
    · subst hst
      rw [hget] at hla
      cases hla
      exact ⟨c2, rfl, haft hlaft⟩
    · exact ⟨la, hla, hlaft⟩
  have htrans2 : ∀ dp, (b.actionGet? dp).isSome = true →
      ∃ d, (b.setActionAt t c2).actionGet? dp = some d := by
    intro dp hdp
    rw [actionGet?_set b t c c2 dp hIdx hget]
    split_ifs with hst
    · exact ⟨c2, rfl⟩
    · exact Option.isSome_iff_exists.mp hdp
  intro id a hga
  rw [actionGet?_set b t c c2 id hIdx hget] at hga
  split_ifs at hga with hit
  · cases hga
    constructor
    · intro s hs
      rcases hsucc s hs with h1 | ⟨la, hla, hlaft⟩
      · obtain ⟨d, hd, hdaft⟩ := (hL t c hget).1 s h1
        exact htrans s d hd hdaft
      · exact htrans s la hla hlaft
    · intro dp hdp
      rcases hdep dp hdp with h1 | h1
      · obtain ⟨d, hd⟩ := (hL t c hget).2 dp h1
        exact htrans2 dp (by rw [hd]; rfl)
      · exact htrans2 dp h1
  · constructor
    · intro s hs
      obtain ⟨d, hd, hdaft⟩ := (hL id a hga).1 s hs
      exact htrans s d hd hdaft
    · intro dp hdp
      obtain ⟨d, hd⟩ := (hL id a hga).2 dp hdp
      exact htrans2 dp (by rw [hd]; rfl)

/-- The successor-link pass of one id preserves index consistency and the
link invariant, provided the source of the links stays resolvable with an
assigned `after`. -/
theorem addSuccLinks_inv (link_id : ID) : ∀ (ts : List ID) (b b2 : Block),
    IndexOk b → Linked b →
    (∃ la, b.actionGet? link_id = some la ∧ la.info.after.isSome = true) →
    addSuccLinks link_id ts b = .ok b2 →
    IndexOk b2 ∧ Linked b2 ∧
      ∃ la, b2.actionGet? link_id = some la ∧ la.info.after.isSome = true := by
  intro ts
  induction ts with
  | nil =>
    intro b b2 hIdx hL hla h
    cases h
    exact ⟨hIdx, hL, hla⟩
  | cons t rest ih =>
    intro b b2 hIdx hL hla h
    unfold addSuccLinks at h
    cases hgt : b.actionGet? t with
    | none => rw [hgt] at h; exact absurd h (by simp)
    | some c =>
      rw [hgt] at h
      refine ih (b.setActionAt t
        (c.withInfo { c.info with successors := sinsert link_id c.info.successors})) b2
        ?_ ?_ ?_ h
      · exact IndexOk_set b t c _ hIdx hgt (by simp [Action.idA])
      · refine Linked_set b t c _ hIdx hL hgt (by simp)
          ?_ (fun dp hdp => Or.inl (by simpa using hdp))
        intro s hs
        rw [show (c.withInfo { c.info with
            successors := sinsert link_id c.info.successors}).info.successors =
          sinsert link_id c.info.successors by simp] at hs
        rcases (mem_sinsert link_id s c.info.successors).mp hs with h1 | rfl
        · exact Or.inl h1
        · exact Or.inr hla
      · obtain ⟨la, hla1, hla2⟩ := hla
        by_cases hlt : link_id = t
        · subst hlt
          rw [hgt] at hla1
          rw [← Option.some.inj hla1] at hla2
          exact ⟨c.withInfo { c.info with successors := sinsert link_id c.info.successors },
            by rw [actionGet?_set b link_id c _ link_id hIdx hgt, if_pos rfl],
            by simpa using hla2⟩
        · refine ⟨la, ?_, hla2⟩
          rw [actionGet?_set b t c _ link_id hIdx hgt, if_neg hlt]
          exact hla1

/-- The dependent-link step of one id preserves index consistency and the
link invariant, provided the source of the link resolves. -/
theorem addDepLink_inv (b : Block) (link_id : ID) (w? : Option ID) (b2 : Block)
    (hIdx : IndexOk b) (hL : Linked b)
    (hla : (b.actionGet? link_id).isSome = true)
    (h : addDepLink b link_id w? = .ok b2) :
    IndexOk b2 ∧ Linked b2 := by
  cases w? with
  | none =>
    cases h
    exact ⟨hIdx, hL⟩
  | some w =>
    cases hgw : b.actionGet? w with
    | none => simp [addDepLink, hgw] at h
    | some c =>
      simp only [addDepLink, hgw] at h
      cases h
      constructor
      · exact IndexOk_set b w c _ hIdx hgw (by simp [Action.idA])
      · refine Linked_set b w c _ hIdx hL hgw (by simp)
          (fun s hs => Or.inl (by simpa using hs)) ?_
        intro dp hdp
        rw [show (c.withInfo { c.info with
            dependents := sinsert link_id c.info.dependents}).info.dependents =
          sinsert link_id c.info.dependents by simp] at hdp
        rcases (mem_sinsert link_id dp c.info.dependents).mp hdp with h1 | rfl
        · exact Or.inl h1
        · exact Or.inr hla

/-- The reverse-link pass of `Block::init` preserves index consistency
and the link invariant. -/
theorem linkLoop_inv : ∀ (ids : List ID) (b b2 : Block),
    IndexOk b → Linked b → linkLoop ids b = .ok b2 →
    IndexOk b2 ∧ Linked b2 := by
  intro ids
  induction ids with
  | nil =>
    intro b b2 hIdx hL h
    cases h
    exact ⟨hIdx, hL⟩
  | cons id rest ih =>
    intro b b2 hIdx hL h
    unfold linkLoop at h
    cases hga : b.actionGet? id with
    | none => rw [hga] at h; exact absurd h (by simp)
    | some a =>
      simp only [hga] at h
      have haid : a.idA = id := actionGet?_idA b id a hIdx hga
      cases hAL : addLinks b a.idA a.afterA a.withA with
      | error e => rw [hAL] at h; exact absurd h (by simp)
      | ok bmid =>
        rw [hAL] at h
        unfold addLinks at hAL
        cases ha : a.info.after with
        | none =>
          have hafter : a.afterA = [] := by simp [Action.afterA, ha]
          rw [hafter] at hAL
          have hS : addSuccLinks a.idA [] b = .ok b := rfl
          rw [hS] at hAL
          have hD := addDepLink_inv b a.idA a.withA bmid hIdx hL
            (by rw [haid, hga]; rfl) hAL
          exact ih bmid b2 hD.1 hD.2 h
        | some s =>
          cases hS : addSuccLinks a.idA a.afterA b with
          | error e => rw [hS] at hAL; exact absurd hAL (by simp)
          | ok bS =>
            rw [hS] at hAL
            have hSi := addSuccLinks_inv a.idA a.afterA b bS hIdx hL
              ⟨a, by rw [haid]; exact hga, by rw [ha]; rfl⟩ hS
            obtain ⟨hIdxS, hLS, la, hla1, hla2⟩ := hSi
            have hD := addDepLink_inv bS a.idA a.withA bmid hIdxS hLS
              (by rw [hla1]; rfl) hAL
            exact ih bmid b2 hD.1 hD.2 h


/-- `Action::verify` only rewrites the `after` and `with` fields, and
keeps an action with an unassigned `after` set equipped with a
companion. -/
theorem verifyA_shape (a : Action) (ids : List ID) (a2 : Action)
    (h : a.verifyA ids = .ok a2) :
    ∃ aft w, a2 = a.withInfo { a.info with after := aft, with_ := w } ∧
      ((a.info.after = none → a.info.with_ ≠ none) → aft = none → w ≠ none) := by
  cases ha : a.info.after with
  | none =>
    cases hw : a.info.with_ with
    | none =>
      simp only [Action.verifyA, ha, hw] at h
      split_ifs at h
      all_goals cases h
      all_goals refine ⟨_, _, rfl, ?_⟩
      all_goals intro hPa hn
      all_goals first
        | exact absurd rfl (hPa rfl)
        | (simp; done)
        | simp at hn
    | some w =>
      simp only [Action.verifyA, ha, hw] at h
      split_ifs at h
      all_goals cases h
      all_goals refine ⟨_, _, rfl, ?_⟩
      all_goals intro hPa hn
      all_goals first
        | exact absurd rfl (hPa rfl)
        | (simp; done)
        | simp at hn
  | some s =>
    cases hr : rewriteRefs ids s with
    | error e =>
      simp only [Action.verifyA, ha, hr] at h
      split_ifs at h <;> simp at h
    | ok s2 =>
      cases hw : a.info.with_ with
      | none =>
        simp only [Action.verifyA, ha, hw, hr] at h
        split_ifs at h
        all_goals cases h
        all_goals refine ⟨_, _, rfl, ?_⟩
        all_goals intro hPa hn
        all_goals first
          | exact absurd rfl (hPa rfl)
          | (simp; done)
          | simp at hn
      | some w =>
        simp only [Action.verifyA, ha, hw, hr] at h
        split_ifs at h
        all_goals cases h
        all_goals refine ⟨_, _, rfl, ?_⟩
        all_goals intro hPa hn
        all_goals first
          | exact absurd rfl (hPa rfl)
          | (simp; done)
          | simp at hn

/-- `Action::verify` keeps the id and the derived link sets, and keeps an
action with an unassigned `after` set equipped with a companion. -/
theorem verifyA_fields (a : Action) (ids : List ID) (a2 : Action)
    (h : a.verifyA ids = .ok a2) :
    a2.idA = a.idA ∧ a2.info.successors = a.info.successors ∧
    a2.info.dependents = a.info.dependents ∧
    ((a.info.after = none → a.info.with_ ≠ none) →
      a2.info.after = none → a2.info.with_ ≠ none) := by
  obtain ⟨aft, w, rfl, hPa⟩ := verifyA_shape a ids a2 h
  refine ⟨by simp [Action.idA], by simp, by simp, ?_⟩
  intro hp hn
  have : aft = none := by simpa using hn
  have hwn := hPa hp this
  simpa using hwn

/-- Pointwise description of the verification pass: positions are kept
and each node is the `Action::verify` image of the original. -/
theorem verifyAll_get (ids : List ID) : ∀ (l l2 : List Action),
    verifyAll ids l = .ok l2 →
    l2.length = l.length ∧
      ∀ k a, l.get? k = some a → ∃ a2, l2.get? k = some a2 ∧ a.verifyA ids = .ok a2 := by
  intro l
  induction l with
  | nil =>
    intro l2 h
    cases h
    exact ⟨rfl, fun k a ha => by cases k <;> cases ha⟩
  | cons a rest ih =>
    intro l2 h
    unfold verifyAll at h
    cases hv : a.verifyA ids with
    | error e => rw [hv] at h; exact absurd h (by simp)
    | ok a2 =>
      simp only [hv] at h
      cases hr : verifyAll ids rest with
      | error e => rw [hr] at h; exact absurd h (by simp)
      | ok rest2 =>
        simp only [hr] at h
        cases h
        obtain ⟨hlen, hpt⟩ := ih rest2 hr
        refine ⟨by simp [hlen], ?_⟩
        intro k b hb
        cases k with
        | zero =>
          cases hb
          exact ⟨a2, rfl, hv⟩
        | succ k =>
          obtain ⟨c2, hc1, hc2⟩ := hpt k b (by simpa using hb)
          exact ⟨c2, by simpa using hc1, hc2⟩

/-- A member of the node list after a write is an old member or the
written node. -/
theorem mem_setActionAt (b : Block) (id : ID) (a x : Action)
    (hx : x ∈ (b.setActionAt id a).actions) : x ∈ b.actions ∨ x = a := by
  unfold Block.setActionAt at hx
  cases hm : mapGet? id b.id2action with
  | none => simp only [hm] at hx; exact Or.inl hx
  | some i => simp only [hm] at hx; exact List.mem_or_eq_of_mem_set hx

/-- The successor-link pass keeps every node with an unassigned `after`
equipped with a companion. -/
theorem addSuccLinks_Pa (link_id : ID) : ∀ (ts : List ID) (b b2 : Block),
    (∀ x ∈ b.actions, x.info.after = none → x.info.with_ ≠ none) →
    addSuccLinks link_id ts b = .ok b2 →
    ∀ x ∈ b2.actions, x.info.after = none → x.info.with_ ≠ none := by
  intro ts
  induction ts with
  | nil =>
    intro b b2 hPa h
    cases h
    exact hPa
  | cons t rest ih =>
    intro b b2 hPa h
    unfold addSuccLinks at h
    cases hgt : b.actionGet? t with
    | none => rw [hgt] at h; exact absurd h (by simp)
    | some c =>
      simp only [hgt] at h
      refine ih _ b2 ?_ h
      intro x hx
      rcases mem_setActionAt _ _ _ _ hx with h1 | rfl
      · exact hPa x h1
      · intro hn hc
        exact hPa c (actionGet?_mem b t c hgt) (by simpa using hn) (by simpa using hc)

/-- The dependent-link step keeps every node with an unassigned `after`
equipped with a companion. -/
theorem addDepLink_Pa (b : Block) (link_id : ID) (w? : Option ID) (b2 : Block)
    (hPa : ∀ x ∈ b.actions, x.info.after = none → x.info.with_ ≠ none)
    (h : addDepLink b link_id w? = .ok b2) :
    ∀ x ∈ b2.actions, x.info.after = none → x.info.with_ ≠ none := by
  cases w? with
  | none =>
    cases h
    exact hPa
  | some w =>
    cases hgw : b.actionGet? w with
    | none => simp [addDepLink, hgw] at h
    | some c =>
      simp only [addDepLink, hgw] at h
      cases h
      intro x hx
      rcases mem_setActionAt _ _ _ _ hx with h1 | rfl
      · exact hPa x h1
      · intro hn hc
        exact hPa c (actionGet?_mem b w c hgw) (by simpa using hn) (by simpa using hc)

/-- The reverse-link pass keeps every node with an unassigned `after`
equipped with a companion. -/
theorem linkLoop_Pa : ∀ (ids : List ID) (b b2 : Block),
    (∀ x ∈ b.actions, x.info.after = none → x.info.with_ ≠ none) →
    linkLoop ids b = .ok b2 →
    ∀ x ∈ b2.actions, x.info.after = none → x.info.with_ ≠ none := by
  intro ids
  induction ids with
  | nil =>
    intro b b2 hPa h
    cases h
    exact hPa
  | cons id rest ih =>
    intro b b2 hPa h
    unfold linkLoop at h
    cases hga : b.actionGet? id with
    | none => rw [hga] at h; exact absurd h (by simp)
    | some a =>
      simp only [hga] at h
      cases hAL : addLinks b a.idA a.afterA a.withA with
      | error e => rw [hAL] at h; exact absurd h (by simp)
      | ok bmid =>
        rw [hAL] at h
        unfold addLinks at hAL
        cases hS : addSuccLinks a.idA a.afterA b with
        | error e => rw [hS] at hAL; exact absurd hAL (by simp)
        | ok bS =>
          rw [hS] at hAL
          exact ih bmid b2
            (addDepLink_Pa bS a.idA a.withA bmid (addSuccLinks_Pa a.idA a.afterA b bS hPa hS) hAL)
            h


/-- A successful `Block::init` leaves a consistent index, the link
invariant, and every node with an unassigned `after` set equipped with a
companion (assuming the declared actions come out of the parser, i.e.
their `#[serde(skip)]` link fields are empty). -/
theorem initB_ok_inv (b : Block) (n : Nat) (b2 : Block)
    (hp : b.actions.all (parsedN (MAX_DEPTH + 2)) = true)
    (h : b.initB n = .ok b2) :
    IndexOk b2 ∧ Linked b2 ∧
      (∀ a ∈ b2.actions, a.info.after = none → a.info.with_ ≠ none) := by
  unfold Block.initB at h
  cases hI : initActions (fun a p l => Action.initA (MAX_DEPTH + 2) a p l 0)
      (fun id => "Action ID `" ++ id ++ "` used more than once; IDs should be unique")
      b.actions 0 none [] with
  | error e => rw [hI] at h; exact absurd h (by simp)
  | ok acts0 =>
    simp only [hI] at h
    set acts := add_gates (spliceTemplates acts0) (some []) none with hacts
    cases hV : verifyAll (sextend [] (acts.map Action.idA)) acts with
    | error e => rw [hV] at h; exact absurd h (by simp)
    | ok acts2 =>
      simp only [hV] at h
      have hGN0 : ∀ x ∈ acts0, GN x ∧ ∀ y ∈ x.kids, GN y :=
        initActions_all (parsedN (MAX_DEPTH + 2)) (fun x => GN x ∧ ∀ y ∈ x.kids, GN y)
          (fun a p l a2 hP hf => initA_GN (MAX_DEPTH + 2) a p l 0 a2 hP hf)
          b.actions 0 none [] acts0 hp hI
      have hGN : ∀ x ∈ acts, GN x := by
        rw [hacts]
        exact add_gates_GN _ _ _ (fun hx => Option.noConfusion hx)
          (spliceTemplates_all acts0 hGN0)
      obtain ⟨hlen, hpt⟩ := verifyAll_get (sextend [] (acts.map Action.idA)) acts acts2 hV
      have hacts2 : ∀ x ∈ acts2, (x.info.after = none → x.info.with_ ≠ none) ∧
          x.info.successors = [] ∧ x.info.dependents = [] := by
        intro x hx
        obtain ⟨k, hk⟩ := List.get?_of_mem hx
        have hklt : k < acts.length := by
          have h1 := (List.get?_eq_some.mp hk).1
          rw [hlen] at h1
          exact h1
        cases hak : acts.get? k with
        | none =>
          have := List.get?_eq_none.mp hak
          omega
        | some y =>
          obtain ⟨a2, h1, h2⟩ := hpt k y hak
          have hax : a2 = x := Option.some.inj (h1.symm.trans hk)
          obtain ⟨_, hsu, hde, hPa⟩ := verifyA_fields y _ a2 h2
          rw [hax] at hsu hde hPa
          obtain ⟨g1, g2, g3⟩ := hGN y (List.get?_mem hak)
          exact ⟨fun hn => hPa g1 hn, by rw [hsu, g2], by rw [hde, g3]⟩
      have hIdx : IndexOk { b with id := n, actions := acts2, id2action := buildIndex acts } := by
        intro id i hm
        refine buildIndexFrom_sound
          (fun id i => ∃ a2, acts2.get? i = some a2 ∧ a2.idA = id) acts 0 []
          (fun id j hj => absurd hj (by simp [mapGet?])) ?_ id i hm
        intro k a hk
        obtain ⟨a2, h1, h2⟩ := hpt k a hk
        obtain ⟨h3, _, _, _⟩ := verifyA_fields a _ a2 h2
        exact ⟨a2, by simpa using h1, by rw [h3]⟩
      have hLmid : Linked { b with id := n, actions := acts2, id2action := buildIndex acts } := by
        intro id a hga
        have hmem : a ∈ acts2 := actionGet?_mem _ id a hga
        obtain ⟨_, hsu, hde⟩ := hacts2 a hmem
        constructor
        · intro s2 hs2
          rw [hsu] at hs2
          cases hs2
        · intro dp hdp
          rw [hde] at hdp
          cases hdp
      obtain ⟨hI2, hL2⟩ := linkLoop_inv _ _ b2 hIdx hLmid h
      refine ⟨hI2, hL2, linkLoop_Pa _ _ b2 ?_ h⟩
      intro x hx
      exact (hacts2 x hx).1


/-- Under the invariant, the successor loop of `Block::satisfy` cannot
panic: every successor resolves and its `after` set is assigned, so the
`unwrap` inside `Action::satisfy` has a value.  The invariant survives
the loop and no id appears or disappears. -/
theorem satisfySuccs_ok (pid : ID) : ∀ (ss : List ID) (b : Block) (acc : List ID),
    IndexOk b → Linked b →
    (∀ s ∈ ss, ∃ c, b.actionGet? s = some c ∧ c.info.after.isSome = true) →
    ∃ b2 r, satisfySuccs pid ss b acc = .ok (b2, r) ∧ IndexOk b2 ∧ Linked b2 ∧
      ∀ j, (b2.actionGet? j).isSome = (b.actionGet? j).isSome := by
  intro ss
  induction ss with
  | nil =>
    intro b acc hIdx hL _
    exact ⟨b, acc, rfl, hIdx, hL, fun j => rfl⟩
  | cons s rest ih =>
    intro b acc hIdx hL hres
    obtain ⟨c, hc, hcaft⟩ := hres s (List.mem_cons_self s rest)
    cases hca : c.info.after with
    | none => rw [hca] at hcaft; simp at hcaft
    | some cs =>
      have hsat : c.satisfyA pid = some
          (c.withInfo { c.info with after := some (sremove pid cs) },
           (sremove pid cs).isEmpty) := by
        unfold Action.satisfyA
        rw [hca]
      have hstep : satisfySuccs pid (s :: rest) b acc =
          satisfySuccs pid rest
            (b.setActionAt s (c.withInfo { c.info with after := some (sremove pid cs) }))
            (if (sremove pid cs).isEmpty then sinsert s acc else acc) := by
        simp only [satisfySuccs, hc, hsat]
      have hIdx2 : IndexOk (b.setActionAt s
          (c.withInfo { c.info with after := some (sremove pid cs) })) :=
        IndexOk_set b s c _ hIdx hc (by simp [Action.idA])
      have hL2 : Linked (b.setActionAt s
          (c.withInfo { c.info with after := some (sremove pid cs) })) :=
        Linked_set b s c _ hIdx hL hc (by simp)
          (fun x hx => Or.inl (by simpa using hx))
          (fun dp hdp => Or.inl (by simpa using hdp))
      have hpt : ∀ j, ((b.setActionAt s
          (c.withInfo { c.info with after := some (sremove pid cs) })).actionGet? j).isSome =
          (b.actionGet? j).isSome := by
        intro j
        rw [actionGet?_set b s c _ j hIdx hc]
        split_ifs with hjs
        · subst hjs
          rw [hc]
          rfl
        · rfl
      have hres2 : ∀ t ∈ rest, ∃ d, ((b.setActionAt s
          (c.withInfo { c.info with after := some (sremove pid cs) })).actionGet? t) = some d ∧
          d.info.after.isSome = true := by
        intro t ht
        obtain ⟨d, hd, hdaft⟩ := hres t (List.mem_cons_of_mem s ht)
        rw [actionGet?_set b s c _ t hIdx hc]
        split_ifs with hts
        · exact ⟨_, rfl, by simp⟩
        · exact ⟨d, hd, hdaft⟩
      obtain ⟨b2, r, hrec, hI3, hL3, hpt2⟩ := ih _ _ hIdx2 hL2 hres2
      refine ⟨b2, r, ?_, hI3, hL3, fun j => (hpt2 j).trans (hpt j)⟩
      rw [hstep]
      exact hrec

/-- Under the invariant, the dependent loop of `Block::satisfy` cannot
panic: every dependent resolves, and marking expirations preserves the
invariant. -/
theorem expireDeps_ok : ∀ (ds : List ID) (b : Block) (acc : List ID),
    IndexOk b → Linked b →
    (∀ d ∈ ds, (b.actionGet? d).isSome = true) →
    ∃ b2 ex, expireDeps ds b acc = .ok (b2, ex) ∧ IndexOk b2 ∧ Linked b2 := by
  intro ds
  induction ds with
  | nil =>
    intro b acc hIdx hL _
    exact ⟨b, acc, rfl, hIdx, hL⟩
  | cons d rest ih =>
    intro b acc hIdx hL hres
    obtain ⟨c, hc⟩ := Option.isSome_iff_exists.mp (hres d (List.mem_cons_self d rest))
    have hstep : expireDeps (d :: rest) b acc =
        expireDeps rest (b.setActionAt d c.expireA) (sinsert d acc) := by
      simp only [expireDeps, hc]
    have hIdx2 : IndexOk (b.setActionAt d c.expireA) :=
      IndexOk_set b d c _ hIdx hc (by simp [Action.idA, Action.expireA])
    have hL2 : Linked (b.setActionAt d c.expireA) :=
      Linked_set b d c _ hIdx hL hc (by simp [Action.expireA])
        (fun x hx => Or.inl (by simpa [Action.expireA] using hx))
        (fun dp hdp => Or.inl (by simpa [Action.expireA] using hdp))
    have hres2 : ∀ t ∈ rest, ((b.setActionAt d c.expireA).actionGet? t).isSome = true := by
      intro t ht
      rw [actionGet?_set b d c _ t hIdx hc]
      split_ifs with htd
      · rfl
      · exact hres t (List.mem_cons_of_mem d ht)
    obtain ⟨b2, ex, hrec, hI3, hL3⟩ := ih _ _ hIdx2 hL2 hres2
    refine ⟨b2, ex, ?_, hI3, hL3⟩
    rw [hstep]
    exact hrec

/-- Under the invariant, `Block::satisfy` on any resolvable id returns
normally — in particular the `after` unwrap inside `Action::satisfy`
never panics — and the invariant still holds afterwards. -/
theorem satisfyB_ok (b : Block) (id : ID) (a : Action)
    (hIdx : IndexOk b) (hL : Linked b) (hget : b.actionGet? id = some a) :
    ∃ b2 r e, b.satisfyB id = .ok (b2, r, e) ∧ IndexOk b2 ∧ Linked b2 := by
  obtain ⟨bm, r, hS, hIm, hLm, hpt⟩ :=
    satisfySuccs_ok id a.info.successors b [] hIdx hL ((hL id a hget).1)
  have hsome : (bm.actionGet? id).isSome = true := by
    rw [hpt id, hget]
    rfl
  obtain ⟨a2, ha2⟩ := Option.isSome_iff_exists.mp hsome
  obtain ⟨b2, ex, hE, hI2, hL2⟩ := expireDeps_ok a2.info.dependents bm [] hIm hLm
    (fun dp hdp => by
      obtain ⟨c, hcr⟩ := (hLm id a2 ha2).2 dp hdp
      rw [hcr]
      rfl)
  refine ⟨b2, r, ex, ?_, hI2, hL2⟩
  unfold Block.satisfyB
  simp only [hget]
  rw [hS, RunRes.bind_ok]
  simp only [ha2, hE, RunRes.bind_ok]


/-- Claim C6, counterexample: the claim says that after a successful
`Block::init` every action has `after == Some` — "including actions that
declare `with` but omit `after`".  `withOnlyBlock` initializes
successfully, yet its action `B` (declared with `with = A` and no
`after`) still has `after = None` afterwards: the default assignment at
`Action::init` only fires when *both* `after` and `with` are absent, and
`Action::verify` leaves a `with` reference that resolves in the id list
untouched. -/
theorem C6_counterexample :
    (Block.initB withOnlyBlock 1).toOption.isSome = true ∧
      withOnlyAfter "B" = some none :=
  ⟨rfl, rfl⟩

/-- Claim C6, amended: after a successful `Block::init` an action's
`after` may remain `None` — exactly then it carries a `with` companion
(first conjunct, for parser-produced inputs whose `#[serde(skip)]` link
fields are empty).  The default assignment claim holds in the form the
code implements it: an action that declares neither `after` nor `with`
gets `after = {previous sibling}` (or the empty set when first), and a
declared `after` set is kept (second conjunct). -/
theorem C6_amended :
    (∀ (b : Block) (n : Nat) (b2 : Block),
        b.actions.all (parsedN (MAX_DEPTH + 2)) = true → b.initB n = .ok b2 →
        ∀ a ∈ b2.actions, a.info.after = none → a.info.with_ ≠ none) ∧
    (∀ (i : Info) (p : Nat) (l : Option ID) (i2 : Info),
        initInfo i p l = .ok i2 →
        (i.after = none → i.with_ = none →
          i2.after = some (l.elim [] (fun x => [x]))) ∧
        (∀ s, i.after = some s → i2.after = some s)) := by
  constructor
  · intro b n b2 hp h
    exact (initB_ok_inv b n b2 hp h).2.2
  · intro i p l i2 h
    have h2 := initInfo_ok i p l i2 h
    refine ⟨?_, h2.2.2.2.2.2⟩
    intro ha hw
    have g5 := h2.2.2.2.2.1 ha hw
    cases l with
    | none => exact g5
    | some x => exact g5

/-- Witness for the amended C6 at concrete inputs. -/
theorem C6_amended_witness :
    (∃ bi, Block.initB withOnlyBlock 1 = .ok bi ∧
      ∀ a ∈ bi.actions, a.info.after = none → a.info.with_ ≠ none) ∧
    (∃ i2, initInfo { id := "Z" } 1 none = .ok i2 ∧ i2.after = some []) := by
  constructor
  · have hok : (Block.initB withOnlyBlock 1).toOption.isSome = true := rfl
    cases hinit : Block.initB withOnlyBlock 1 with
    | error e => rw [hinit] at hok; simp [Except.toOption] at hok
    | ok bi =>
      exact ⟨bi, rfl, C6_amended.1 withOnlyBlock 1 bi (by decide) hinit⟩
  · have hok : (initInfo { id := "Z" } 1 none).toOption.isSome = true := rfl
    cases hi : initInfo { id := "Z" } 1 none with
    | error e => rw [hi] at hok; simp [Except.toOption] at hok
    | ok i2 =>
      refine ⟨i2, rfl, ?_⟩
      have h2 := (C6_amended.2 { id := "Z" } 1 none i2 hi).1 rfl rfl
      exact h2

/-- Claim C10: for every graph accepted by `Block::init` (from
parser-produced input, i.e. empty `#[serde(skip)]` link fields), the
`unwrap` of the `after` field inside `Action::satisfy` never panics.
First conjunct: a successful `Block::init` establishes the safety
invariant — the index is consistent and every id stored in a
`successors` set resolves to a node whose `after` set is assigned (an id
is only linked as a successor because the source's `after` set was
`Some` at link time), every `dependents` entry resolves.  Second
conjunct: under that invariant `Block::satisfy` on any resolvable id
returns normally and re-establishes the invariant, so no later
`satisfy`/`wrap`/`skip` cascade can reach the panic either — no
operation ever resets an `after` field to `None`. -/
theorem C10_satisfy_no_panic :
    (∀ (b : Block) (n : Nat) (b2 : Block),
        b.actions.all (parsedN (MAX_DEPTH + 2)) = true →
        b.initB n = .ok b2 → IndexOk b2 ∧ Linked b2) ∧
    (∀ (b : Block) (id : ID) (a : Action),
        IndexOk b → Linked b → b.actionGet? id = some a →
        ∃ b2 r e, b.satisfyB id = .ok (b2, r, e) ∧ IndexOk b2 ∧ Linked b2) := by
  constructor
  · intro b n b2 hp h
    have h2 := initB_ok_inv b n b2 hp h
    exact ⟨h2.1, h2.2.1⟩
  · exact satisfyB_ok

/-- Witness for C10 at a concrete input: the initialized `cascadeBlock`
satisfies a completion of `A` without a panic. -/
theorem C10_satisfy_no_panic_witness :
    ∃ bi, Block.initB cascadeBlock 1 = .ok bi ∧
      ∃ b2 r e, bi.satisfyB "A" = .ok (b2, r, e) := by
  have hok : (Block.initB cascadeBlock 1).toOption.isSome = true := rfl
  cases hinit : Block.initB cascadeBlock 1 with
  | error e => rw [hinit] at hok; simp [Except.toOption] at hok
  | ok bi =>
    have hinv := C10_satisfy_no_panic.1 cascadeBlock 1 bi (by decide) hinit
    have hga : (bi.actionGet? "A").isSome = true := by
      have h2 : ((Block.initB cascadeBlock 1).toOption.bind
          (fun bb => bb.actionGet? "A")).isSome = true := rfl
      rw [hinit] at h2
      simpa [Except.toOption] using h2
    obtain ⟨a, ha⟩ := Option.isSome_iff_exists.mp hga
    obtain ⟨b2, r, e, hs, _, _⟩ := C10_satisfy_no_panic.2 bi "A" a hinv.1 hinv.2 ha
    exact ⟨bi, rfl, b2, r, e, hs⟩

end TaskRunner
